import Mathlib

/-!
# Verification of the piper1-gpl alignment / validation pipeline

Shallow embedding of the alignment and validation pipeline of the
repository:

* `script/validate_dataset_whisper_sharded.py` — round-robin sharding;
* `script/text_splitter/01_text_splitter.py` — the Chunker
  (`_split_long_sentence`, `smart_grouping`);
* `script/felix_mirage_v2_align_whisperx.py` — the Sequential Aligner
  (`_normalize_text`, `_tokenize`, `_similarity`, `_best_match_sequential`
  and the per-chunk body of `main`);
* `script/dataset_quality_report.py` — per-row quality heuristics and
  duplicate detection;
* `script/validate_dataset_full.py` — the full-validation verdict.

Python strings are modelled as `List Char`, Python floats as `ℚ`
(arithmetic here is simple enough that the binary-float rounding error is
irrelevant to every claim; the explicit decimal `round(_, 3)` / `round(_, 4)`
calls of the source ARE modelled, as half-even decimal rounding).
Filesystem and ASR-engine boundaries are oracles passed as parameters.
-/

namespace Piper

/-! ## Round-robin sharding (`validate_dataset_whisper_sharded._round_robin`)

```python
def _round_robin(lines: list[str], n: int) -> list[list[str]]:
    shards: list[list[str]] = [[] for _ in range(n)]
    for i, line in enumerate(lines):
        shards[i % n].append(line)
    return shards
```
-/

/-- One iteration of the Python loop: `shards[i % n].append(line)`. -/
def rrStep (n : Nat) (shards : List (List α)) (p : Nat × α) : List (List α) :=
  shards.set (p.1 % n) (shards.getD (p.1 % n) [] ++ [p.2])

/-- `_round_robin`: start from `n` empty shards and append row `i` to shard
`i % n`. -/
def roundRobin (lines : List α) (n : Nat) : List (List α) :=
  lines.enum.foldl (rrStep n) (List.replicate n [])

/-- The elements of `l` sitting at enumeration indices `k, k+1, …` whose
index is `≡ j [MOD n]`; characterises one shard of `roundRobin`. -/
def sieve (n j : Nat) : Nat → List α → List α
  | _, [] => []
  | k, a :: l => (if k % n = j then [a] else []) ++ sieve n j (k + 1) l

theorem rrStep_length (n : Nat) (shards : List (List α)) (p : Nat × α) :
    (rrStep n shards p).length = shards.length := by
  simp [rrStep]

theorem foldl_rrStep_length (l : List (Nat × α)) (acc : List (List α)) :
    (l.foldl (rrStep n) acc).length = acc.length := by
  induction l generalizing acc with
  | nil => rfl
  | cons p l ih => simp [List.foldl_cons, ih, rrStep_length]

theorem foldl_rrStep_getElem? (l : List α) {n j : Nat} (hj : j < n) :
    ∀ (k : Nat) (acc : List (List α)), acc.length = n →
      ((l.enumFrom k).foldl (rrStep n) acc)[j]? =
        (acc[j]?.map (· ++ sieve n j k l)) := by
  induction l with
  | nil =>
    intro k acc hacc
    simp [sieve, List.getElem?_eq_getElem (by omega : j < acc.length)]
  | cons a l ih =>
    intro k acc hacc
    have hk : k % n < n := Nat.mod_lt _ (by omega)
    have hset : (rrStep n acc (k, a)).length = n := by
      rw [rrStep_length]; exact hacc
    rw [List.enumFrom_cons, List.foldl_cons, ih (k + 1) _ hset]
    by_cases h : k % n = j
    · subst h
      rw [rrStep]
      have hlt : k % n < acc.length := by omega
      rw [@List.getElem?_set_self' _ acc _ _]
      simp [sieve, List.getElem?_eq_getElem hlt, List.getD,
        List.getElem?_eq_getElem (by omega : k % n < acc.length)]
    · rw [rrStep, List.getElem?_set_ne h]
      simp [sieve, h]

theorem roundRobin_getElem? (lines : List α) {n j : Nat} (hj : j < n) :
    (roundRobin lines n)[j]? = some (sieve n j 0 lines) := by
  have h := foldl_rrStep_getElem? lines hj 0 (List.replicate n [])
    (List.length_replicate n [])
  have henum : lines.enum = lines.enumFrom 0 := rfl
  rw [roundRobin, henum, h]
  simp [List.getElem?_eq_getElem (by simpa using hj :
    j < (List.replicate n ([] : List α)).length)]

theorem roundRobin_length (lines : List α) (n : Nat) :
    (roundRobin lines n).length = n := by
  have henum : lines.enum = lines.enumFrom 0 := rfl
  rw [roundRobin, henum, foldl_rrStep_length]
  exact List.length_replicate n []

theorem roundRobin_eq_map_sieve (lines : List α) {n : Nat} :
    roundRobin lines n = (List.range n).map (fun j => sieve n j 0 lines) := by
  apply List.ext_getElem?
  intro j
  by_cases hj : j < n
  · rw [roundRobin_getElem? lines hj,
      List.getElem?_eq_getElem (by simpa using hj)]
    simp
  · rw [List.getElem?_eq_none, List.getElem?_eq_none]
    · simpa using hj
    · rw [roundRobin_length]; omega

theorem sieve_shift (n j k : Nat) (l : List α) :
    sieve n j (k + n) l = sieve n j k l := by
  induction l generalizing k with
  | nil => rfl
  | cons a l ih =>
    show (if (k + n) % n = j then [a] else []) ++ sieve n j (k + n + 1) l = _
    rw [Nat.add_mod_right, show k + n + 1 = (k + 1) + n by omega, ih]
    rfl

theorem sieve_peelAux {n : Nat} (hn : 0 < n) {j : Nat} (hj : j < n) :
    ∀ (d k : Nat) (l : List α), k + d = n →
      sieve n j k l =
        (if k ≤ j then (l[j - k]?.toList) else []) ++ sieve n j 0 (l.drop d) := by
  intro d
  induction d with
  | zero =>
    intro k l hk
    have hk' : k = n := by omega
    have hs : sieve n j n l = sieve n j 0 l := by
      have h0 := sieve_shift n j 0 l
      simpa using h0
    rw [hk', hs, List.drop_zero]
    have : ¬ n ≤ j := by omega
    simp [this]
  | succ d ih =>
    intro k l hk
    match l with
    | [] => simp [sieve, List.drop_nil]
    | a :: l =>
      have hkn : k < n := by omega
      show (if k % n = j then [a] else []) ++ sieve n j (k + 1) l = _
      rw [Nat.mod_eq_of_lt hkn, ih (k + 1) l (by omega)]
      by_cases h : k = j
      · subst h
        simp [List.drop_succ_cons, Nat.sub_self, show ¬ k + 1 ≤ k by omega]
      · by_cases h2 : k ≤ j
        · have hj1 : k + 1 ≤ j := by omega
          have : j - k = (j - (k + 1)) + 1 := by omega
          simp [h, h2, hj1, this, List.drop_succ_cons]
        · simp [h, h2, show ¬ k + 1 ≤ j by omega, List.drop_succ_cons]

theorem sieve_peel {n : Nat} (hn : 0 < n) {j : Nat} (hj : j < n) (l : List α) :
    sieve n j 0 l = l[j]?.toList ++ sieve n j 0 (l.drop n) := by
  have h := sieve_peelAux hn hj n 0 l (by omega)
  simpa using h

theorem sieve_eq_nil_of_le {n j : Nat} :
    ∀ (l : List α) (k : Nat), k + l.length ≤ j → sieve n j k l = [] := by
  intro l
  induction l with
  | nil => intro k _; rfl
  | cons a l ih =>
    intro k hk
    show (if k % n = j then [a] else []) ++ sieve n j (k + 1) l = []
    have hlen : (a :: l).length = l.length + 1 := rfl
    rw [hlen] at hk
    have : k % n ≠ j := by
      have := Nat.mod_le k n
      omega
    rw [if_neg this, List.nil_append]
    exact ih (k + 1) (by omega)

theorem sieve_zero_of_ge {n j : Nat} (l : List α) (h : l.length ≤ j) :
    sieve n j 0 l = [] :=
  sieve_eq_nil_of_le l 0 (by omega)

theorem sieve_head? {n : Nat} (hn : 0 < n) {j : Nat} (hj : j < n) (l : List α) :
    (sieve n j 0 l).head? = l[j]? := by
  rw [sieve_peel hn hj l]
  match h : l[j]? with
  | some a => simp
  | none =>
    have hlen : l.length ≤ j := by
      by_contra hc
      rw [List.getElem?_eq_getElem (by omega)] at h
      exact Option.noConfusion h
    have hdrop : l.drop n = [] := by
      rw [List.drop_eq_nil_iff]
      omega
    rw [hdrop]
    rfl

theorem sieve_tail {n : Nat} (hn : 0 < n) {j : Nat} (hj : j < n) (l : List α) :
    (sieve n j 0 l).tail = sieve n j 0 (l.drop n) := by
  rw [sieve_peel hn hj l]
  match h : l[j]? with
  | some a => simp
  | none =>
    have hlen : l.length ≤ j := by
      by_contra hc
      rw [List.getElem?_eq_getElem (by omega)] at h
      exact Option.noConfusion h
    have hdrop : l.drop n = [] := by
      rw [List.drop_eq_nil_iff]
      omega
    rw [hdrop]
    rfl

theorem sieve_length_peel {n : Nat} (hn : 0 < n) {j : Nat} (hj : j < n)
    (l : List α) :
    (sieve n j 0 l).length =
      (if j < l.length then 1 else 0) + (sieve n j 0 (l.drop n)).length := by
  rw [sieve_peel hn hj l, List.length_append]
  by_cases h : j < l.length
  · rw [List.getElem?_eq_getElem h]
    simp [h]
  · rw [List.getElem?_eq_none (by omega)]
    simp [h]

/-- Shard sizes of `_round_robin` differ pairwise by at most 1. -/
theorem sieve_length_balanced {n : Nat} (hn : 0 < n) :
    ∀ (N : Nat) (l : List α), l.length = N → ∀ {j₁ j₂ : Nat}, j₁ < n → j₂ < n →
      (sieve n j₁ 0 l).length ≤ (sieve n j₂ 0 l).length + 1 := by
  intro N
  induction N using Nat.strong_induction_on with
  | _ N ih =>
    intro l hl j₁ j₂ hj₁ hj₂
    rcases Nat.eq_zero_or_pos N with hN | hN
    · have hnil : l = [] := by
        cases l with
        | nil => rfl
        | cons a l => rw [List.length_cons] at hl; omega
      subst hnil
      rw [sieve_zero_of_ge [] (by simp), sieve_zero_of_ge [] (by simp)]
      simp
    · rw [sieve_length_peel hn hj₁ l, sieve_length_peel hn hj₂ l]
      by_cases hNn : N ≤ n
      · have hdrop : l.drop n = [] := by rw [List.drop_eq_nil_iff]; omega
        rw [hdrop, sieve_zero_of_ge [] (by simp), sieve_zero_of_ge [] (by simp)]
        by_cases h1 : j₁ < l.length <;> by_cases h2 : j₂ < l.length <;>
          simp [h1, h2]
      · have h1 : j₁ < l.length := by omega
        have h2 : j₂ < l.length := by omega
        have hdroplen : (l.drop n).length = N - n := by simp [hl]
        have := ih (N - n) (by omega) (l.drop n) hdroplen hj₁ hj₂
        simp only [h1, h2, if_pos]
        omega

theorem sieve_getElem?_div {n : Nat} (hn : 0 < n) :
    ∀ (q : Nat) (l : List α) {j : Nat}, j < n →
      (sieve n j 0 l)[q]? = l[q * n + j]? := by
  intro q
  induction q with
  | zero =>
    intro l j hj
    rw [show (0 * n + j) = j by omega, ← List.head?_eq_getElem?,
      sieve_head? hn hj]
  | succ q ih =>
    intro l j hj
    rw [sieve_peel hn hj l]
    match h : l[j]? with
    | some a =>
      rw [Option.toList_some, List.singleton_append, List.getElem?_cons_succ,
        ih (l.drop n) hj, List.getElem?_drop]
      congr 1
      rw [Nat.succ_mul]
      omega
    | none =>
      have hlen : l.length ≤ j := by
        by_contra hc
        rw [List.getElem?_eq_getElem (by omega)] at h
        exact Option.noConfusion h
      have hdrop : l.drop n = [] := by rw [List.drop_eq_nil_iff]; omega
      have hge : l.length ≤ (q + 1) * n + j := by
        have h1 : 1 * n ≤ (q + 1) * n := Nat.mul_le_mul_right n (by omega)
        omega
      rw [Option.toList_none, List.nil_append, hdrop,
        sieve_eq_nil_of_le [] 0 (by simp),
        List.getElem?_eq_none hge]
      rfl

theorem sum_map_length_tail_le (ss : List (List α)) :
    ((ss.map List.tail).map List.length).sum ≤ (ss.map List.length).sum := by
  induction ss with
  | nil => simp
  | cons s ss ih =>
    simp only [List.map_cons, List.sum_cons]
    have : s.tail.length ≤ s.length := by
      rw [List.length_tail]; omega
    omega

theorem sum_map_length_tail_lt (ss : List (List α))
    (h : ss.filterMap List.head? ≠ []) :
    ((ss.map List.tail).map List.length).sum < (ss.map List.length).sum := by
  induction ss with
  | nil => simp at h
  | cons s ss ih =>
    match s with
    | [] =>
      simp only [List.filterMap_cons, List.head?_nil] at h
      simp only [List.map_cons, List.tail_nil, List.length_nil, List.sum_cons]
      have := ih h
      omega
    | a :: t =>
      simp only [List.map_cons, List.tail_cons, List.sum_cons, List.length_cons]
      have := sum_map_length_tail_le ss
      omega

/-- Concatenating shards "in round-robin order": repeatedly take the head of
every non-exhausted shard, in shard order. -/
def interleave (ss : List (List α)) : List α :=
  let hs := ss.filterMap List.head?
  if h : hs.isEmpty then [] else hs ++ interleave (ss.map List.tail)
termination_by (ss.map List.length).sum
decreasing_by
  refine sum_map_length_tail_lt ss ?_
  intro hc
  exact h (by simp [hc]; exact hc)

theorem interleave_eq (ss : List (List α)) :
    interleave ss =
      if (ss.filterMap List.head?).isEmpty then []
      else ss.filterMap List.head? ++ interleave (ss.map List.tail) := by
  rw [interleave]
  exact dite_eq_ite

theorem range_filterMap_getElem? (l : List α) :
    ∀ n : Nat, (List.range n).filterMap (fun j => l[j]?) = l.take n := by
  intro n
  induction n with
  | zero => simp
  | succ n ih =>
    rw [List.range_succ, List.filterMap_append, ih, List.take_succ]
    cases h : l[n]? <;> simp [List.filterMap_cons, h]

theorem roundRobin_filterMap_head? {n : Nat} (hn : 0 < n) (l : List α) :
    (roundRobin l n).filterMap List.head? = l.take n := by
  rw [roundRobin_eq_map_sieve, List.filterMap_map]
  have : ∀ j ∈ List.range n,
      (List.head? ∘ fun j => sieve n j 0 l) j = l[j]? := by
    intro j hj
    rw [List.mem_range] at hj
    exact sieve_head? hn hj l
  rw [List.filterMap_congr this, range_filterMap_getElem?]

theorem roundRobin_map_tail {n : Nat} (hn : 0 < n) (l : List α) :
    (roundRobin l n).map List.tail = roundRobin (l.drop n) n := by
  rw [roundRobin_eq_map_sieve, roundRobin_eq_map_sieve, List.map_map]
  apply List.map_congr_left
  intro j hj
  rw [List.mem_range] at hj
  exact sieve_tail hn hj l

theorem interleave_roundRobin {n : Nat} (hn : 0 < n) :
    ∀ (N : Nat) (l : List α), l.length = N → interleave (roundRobin l n) = l := by
  intro N
  induction N using Nat.strong_induction_on with
  | _ N ih =>
    intro l hl
    rw [interleave_eq, roundRobin_filterMap_head? hn l]
    by_cases h : l.take n = []
    · have hnil : l = [] := by
        rcases List.take_eq_nil_iff.mp h with h' | h'
        · omega
        · exact h'
      subst hnil
      simp
    · have hlpos : 0 < l.length := by
        cases l with
        | nil => simp at h
        | cons a t => simp
      rw [if_neg (by simpa [List.isEmpty_iff] using h),
        roundRobin_map_tail hn l,
        ih ((l.drop n).length) (by simp [hl]; omega) (l.drop n) rfl,
        List.take_append_drop]

/-- **C8** (confirmed). For every list of `N` metadata rows and every worker
count `K ≥ 1`, `_round_robin` assigns row `i` to shard `i % K` (at in-shard
position `i / K`, i.e. round-robin, not contiguous blocks), the resulting
shard sizes differ from each other by at most 1, and concatenating the shards
in round-robin order (`interleave`) reproduces the input rows. -/
theorem claim_C8_round_robin {α : Type} (lines : List α) (K : Nat)
    (hK : 1 ≤ K) :
    (∀ i, i < lines.length →
      ((roundRobin lines K)[i % K]?.getD [])[i / K]? = lines[i]?) ∧
    (∀ j₁ j₂, j₁ < K → j₂ < K →
      ((roundRobin lines K)[j₁]?.getD []).length ≤
        ((roundRobin lines K)[j₂]?.getD []).length + 1) ∧
    interleave (roundRobin lines K) = lines := by
  refine ⟨?_, ?_, ?_⟩
  · intro i hi
    have hmod : i % K < K := Nat.mod_lt _ (by omega)
    rw [roundRobin_getElem? lines hmod, Option.getD_some,
      sieve_getElem?_div (by omega) (i / K) lines hmod,
      show i / K * K + i % K = i from by rw [Nat.mul_comm]; exact Nat.div_add_mod i K]
  · intro j₁ j₂ hj₁ hj₂
    rw [roundRobin_getElem? lines hj₁, roundRobin_getElem? lines hj₂,
      Option.getD_some, Option.getD_some]
    exact sieve_length_balanced (by omega) lines.length lines rfl hj₁ hj₂
  · exact interleave_roundRobin (by omega) lines.length lines rfl

/-- Witness for C8 at a concrete input: three rows over two workers. -/
theorem claim_C8_round_robin_witness :
    (1 ≤ 2) ∧ interleave (roundRobin [10, 20, 30] 2) = [10, 20, 30] :=
  ⟨by decide, (claim_C8_round_robin [10, 20, 30] 2 (by decide)).2.2⟩

/-! ## The Chunker (`text_splitter/01_text_splitter.py`)

`_split_long_sentence` and `smart_grouping`, on `List Char` strings.
-/

/-- Python `str.strip()` default whitespace (the ASCII part; all texts of
this pipeline contain no non-ASCII whitespace). -/
def isPySpace (c : Char) : Bool :=
  c = ' ' || c = '\t' || c = '\n' || c = '\r' || c = '\x0b' || c = '\x0c'

/-- Python `str.strip()`. -/
def pyStrip (l : List Char) : List Char :=
  ((l.dropWhile isPySpace).reverse.dropWhile isPySpace).reverse

/-- Python `s.rfind(c, start)` restricted to single-character needles:
the highest index `i ≥ start` with `s[i] = c`, if any (`-1` is `none`). -/
def rfindFrom (l : List Char) (c : Char) (start : Nat) : Option Nat :=
  ((List.range l.length).filter
    (fun i => decide (start ≤ i ∧ l.getD i ' ' = c))).getLast?

/-- `break_chars = [";", ":", ",", "—"]` of `_split_long_sentence`. -/
def breakChars : List Char := [';', ':', ',', '—']

/-- The cut position chosen by one iteration of the `_split_long_sentence`
loop.  `start_search = int(max_len * 0.70)` is `7 * maxLen / 10` (exact for
every realistic `max_len`; the binary-float product only drifts from this
beyond `max_len ≈ 4·10^15`). -/
def sentenceCut (remaining : List Char) (maxLen : Nat) : Nat :=
  let window := remaining.take (maxLen + 1)
  let startSearch := 7 * maxLen / 10
  match breakChars.findSome? (fun ch => rfindFrom window ch startSearch) with
  | some idx => idx + 1
  | none =>
    match rfindFrom window ' ' startSearch with
    | some idx => idx
    | none => maxLen

/-- The `while` loop of `_split_long_sentence` (fuel-indexed; fuel
`text.length + 1` never runs out when `maxLen ≥ 1` because every iteration
shortens `remaining`). -/
def splitLongAux (maxLen : Nat) : Nat → List Char → List (List Char)
  | 0, remaining => if remaining = [] then [] else [remaining]
  | fuel + 1, remaining =>
    if remaining = [] then []
    else if remaining.length ≤ maxLen then [remaining]
    else
      let cut := sentenceCut remaining maxLen
      let head := pyStrip (remaining.take cut)
      let rest := pyStrip (remaining.drop cut)
      (if head = [] then [] else [head]) ++ splitLongAux maxLen fuel rest

/-- `_split_long_sentence(text, max_len)`. -/
def splitLongSentence (text : List Char) (maxLen : Nat) : List (List Char) :=
  let t := pyStrip text
  splitLongAux maxLen (t.length + 1) t

/-- `" ".join(parts)`. -/
def joinSp (ts : List (List Char)) : List Char := List.intercalate [' '] ts

/-- The running state of the `smart_grouping` packing loop. -/
structure GroupState where
  chunks : List (List Char)
  current : List (List Char)
  currentLen : Nat

/-- One iteration of the `smart_grouping` packing loop over an expanded
sentence. -/
def groupStep (maxLen : Nat) (st : GroupState) (sentText : List Char) :
    GroupState :=
  let s := pyStrip sentText
  if s = [] then st
  else
    let sentLen := s.length
    if st.current ≠ [] ∧ st.currentLen + 1 + sentLen ≤ maxLen then
      { st with current := st.current ++ [s],
                currentLen := st.currentLen + 1 + sentLen }
    else if st.current = [] ∧ sentLen ≤ maxLen then
      { st with current := [s], currentLen := sentLen }
    else
      { chunks :=
          if st.current ≠ [] then st.chunks ++ [pyStrip (joinSp st.current)]
          else st.chunks,
        current := [s], currentLen := sentLen }

/-- The tail handling ("orphan repair") and final cleanup of
`smart_grouping`. -/
def groupFinish (maxLen minLen : Nat) (st : GroupState) : List (List Char) :=
  let chunks :=
    if st.current = [] then st.chunks
    else
      let last := pyStrip (joinSp st.current)
      if last.length < minLen ∧ st.chunks ≠ [] then
        let prev := st.chunks.getLastD []
        if prev.length + 1 + last.length ≤ maxLen + 50 then
          st.chunks.dropLast ++ [pyStrip ((prev ++ [' ']) ++ last)]
        else
          st.chunks.dropLast ++ [prev, last]
      else st.chunks ++ [last]
  (chunks.map pyStrip).filter (fun c => c ≠ [])

/-- The sentence-expansion pass of `smart_grouping` (`s.strip()`, skip
empties, extend with `_split_long_sentence(s, max_len)`; the strip and the
empty-skip are already the first steps of `_split_long_sentence`). -/
def expandSentences (sentences : List (List Char)) (maxLen : Nat) :
    List (List Char) :=
  sentences.flatMap (fun s => splitLongSentence s maxLen)

/-- `smart_grouping(sentences, max_len, min_len)`. -/
def smartGrouping (sentences : List (List Char)) (maxLen minLen : Nat) :
    List (List Char) :=
  groupFinish maxLen minLen
    ((expandSentences sentences maxLen).foldl (groupStep maxLen) ⟨[], [], 0⟩)

theorem prefix_head?_eq {l₁ l₂ : List α} (h : l₁ <+: l₂) (hne : l₁ ≠ []) :
    l₂.head? = l₁.head? := by
  obtain ⟨t, rfl⟩ := h
  cases l₁ with
  | nil => exact absurd rfl hne
  | cons a l => rfl

theorem pyStrip_pref (l : List Char) :
    pyStrip l <+: l.dropWhile isPySpace := by
  have h1 : (l.dropWhile isPySpace).reverse.dropWhile isPySpace <:+
      (l.dropWhile isPySpace).reverse := List.dropWhile_suffix _
  have h2 := List.reverse_prefix.mpr h1
  rw [List.reverse_reverse] at h2
  exact h2

theorem pyStrip_length_le (l : List Char) : (pyStrip l).length ≤ l.length :=
  le_trans (pyStrip_pref l).length_le (List.dropWhile_suffix isPySpace).length_le

theorem dropWhile_head?_not (p : Char → Bool) (l : List Char) (a : Char)
    (h : (l.dropWhile p).head? = some a) : p a = false := by
  match hm : l.dropWhile p with
  | [] => rw [hm] at h; exact Option.noConfusion h
  | b :: t =>
    rw [hm] at h
    have hb : b = a := by simpa using h
    subst hb
    have h0 : 0 < (l.dropWhile p).length := by rw [hm]; simp
    have hnot := List.dropWhile_get_zero_not p l h0
    have hget : (l.dropWhile p).get ⟨0, h0⟩ = b := by
      have := List.get_of_eq hm ⟨0, h0⟩
      simpa using this
    rw [hget] at hnot
    simpa using hnot

theorem pyStrip_head?_not (l : List Char) (a : Char)
    (h : (pyStrip l).head? = some a) : isPySpace a = false := by
  have hne : pyStrip l ≠ [] := by
    intro hc
    rw [hc] at h
    exact Option.noConfusion h
  have heq := prefix_head?_eq (pyStrip_pref l) hne
  rw [h] at heq
  exact dropWhile_head?_not isPySpace l a heq

theorem pyStrip_getLast?_not (l : List Char) (a : Char)
    (h : (pyStrip l).getLast? = some a) : isPySpace a = false := by
  rw [pyStrip, List.getLast?_reverse] at h
  exact dropWhile_head?_not isPySpace _ a h

theorem dropWhile_eq_self_of_head (p : Char → Bool) (l : List Char)
    (h : ∀ a, l.head? = some a → p a = false) : l.dropWhile p = l := by
  cases l with
  | nil => rfl
  | cons a t =>
    have := h a rfl
    rw [List.dropWhile_cons_of_neg (by rw [this]; exact Bool.false_ne_true)]

theorem pyStrip_eq_self (l : List Char)
    (h1 : ∀ a, l.head? = some a → isPySpace a = false)
    (h2 : ∀ a, l.getLast? = some a → isPySpace a = false) : pyStrip l = l := by
  rw [pyStrip, dropWhile_eq_self_of_head isPySpace l h1,
    dropWhile_eq_self_of_head isPySpace l.reverse
      (by intro a ha; rw [List.head?_reverse] at ha; exact h2 a ha),
    List.reverse_reverse]

theorem pyStrip_idem (l : List Char) : pyStrip (pyStrip l) = pyStrip l :=
  pyStrip_eq_self (pyStrip l) (pyStrip_head?_not l) (pyStrip_getLast?_not l)

theorem rfindFrom_spec (l : List Char) (c : Char) (start i : Nat)
    (h : rfindFrom l c start = some i) :
    start ≤ i ∧ i < l.length ∧ l.getD i ' ' = c := by
  have hmem := List.mem_of_mem_getLast? h
  rw [List.mem_filter] at hmem
  obtain ⟨hrange, hdec⟩ := hmem
  rw [List.mem_range] at hrange
  have hp := of_decide_eq_true hdec
  exact ⟨hp.1, hrange, hp.2⟩

theorem sentenceCut_bounds (remaining : List Char) (maxLen : Nat)
    (hML : 1 ≤ maxLen)
    (hs : ∀ a, remaining.head? = some a → isPySpace a = false)
    (hne : remaining ≠ []) :
    1 ≤ sentenceCut remaining maxLen ∧
      sentenceCut remaining maxLen ≤ maxLen + 1 := by
  rw [sentenceCut]
  set window := remaining.take (maxLen + 1) with hwin
  have hwlen : window.length ≤ maxLen + 1 := by
    rw [hwin]; simp
  match hfs : breakChars.findSome?
      (fun ch => rfindFrom window ch (7 * maxLen / 10)) with
  | some idx =>
    obtain ⟨ch, _, hch⟩ := List.exists_of_findSome?_eq_some hfs
    have := rfindFrom_spec window ch _ idx hch
    simp only []
    omega
  | none =>
    match hws : rfindFrom window ' ' (7 * maxLen / 10) with
    | some idx =>
      have hspec := rfindFrom_spec window ' ' _ idx hws
      simp only []
      have hidx : idx ≠ 0 := by
        intro h0
        subst h0
        obtain ⟨hs1, hs2, hs3⟩ := hspec
        cases hr : remaining with
        | nil => exact hne hr
        | cons a t =>
          have hha : window.getD 0 ' ' = a := by
            rw [hwin, hr]
            rfl
          have hsp := hs a (by rw [hr]; rfl)
          rw [hha] at hs3
          rw [hs3] at hsp
          simp [isPySpace] at hsp
      omega
    | none =>
      simp only []
      omega

theorem splitLongAux_bound {maxLen : Nat} (hML : 1 ≤ maxLen) :
    ∀ (fuel : Nat) (remaining : List Char), remaining.length < fuel →
      pyStrip remaining = remaining →
      ∀ u ∈ splitLongAux maxLen fuel remaining, u.length ≤ maxLen + 1 := by
  intro fuel
  induction fuel with
  | zero => intro remaining h; omega
  | succ fuel ih =>
    intro remaining hlen hstrip u hu
    rw [splitLongAux] at hu
    by_cases hnil : remaining = []
    · simp [hnil] at hu
    · rw [if_neg hnil] at hu
      by_cases hshort : remaining.length ≤ maxLen
      · rw [if_pos hshort] at hu
        have : u = remaining := by simpa using hu
        subst this
        omega
      · rw [if_neg hshort] at hu
        simp only [] at hu
        have hcut := sentenceCut_bounds remaining maxLen hML
          (by intro a ha; rw [← hstrip] at ha; exact pyStrip_head?_not remaining a ha)
          hnil
        rw [List.mem_append] at hu
        rcases hu with hu | hu
        · by_cases hh : pyStrip (remaining.take (sentenceCut remaining maxLen)) = []
          · simp [hh] at hu
          · rw [if_neg hh, List.mem_singleton] at hu
            subst hu
            calc (pyStrip (remaining.take (sentenceCut remaining maxLen))).length
                ≤ (remaining.take (sentenceCut remaining maxLen)).length :=
                  pyStrip_length_le _
              _ ≤ sentenceCut remaining maxLen := by
                  rw [List.length_take]; omega
              _ ≤ maxLen + 1 := hcut.2
        · refine ih (pyStrip (remaining.drop (sentenceCut remaining maxLen)))
            ?_ (pyStrip_idem _) u hu
          have h1 : (pyStrip (remaining.drop (sentenceCut remaining maxLen))).length
              ≤ remaining.length - sentenceCut remaining maxLen := by
            calc _ ≤ (remaining.drop (sentenceCut remaining maxLen)).length :=
                pyStrip_length_le _
              _ = remaining.length - sentenceCut remaining maxLen := by
                rw [List.length_drop]
          omega

/-- Every part produced by `_split_long_sentence(text, max_len)` has length
at most `max_len + 1` (the `cut = idx + 1` separator branch can keep a
separator sitting at window position `max_len`). -/
theorem splitLongSentence_bound {maxLen : Nat} (hML : 1 ≤ maxLen)
    (text : List Char) :
    ∀ u ∈ splitLongSentence text maxLen, u.length ≤ maxLen + 1 := by
  intro u hu
  exact splitLongAux_bound hML ((pyStrip text).length + 1) (pyStrip text)
    (by omega) (pyStrip_idem text) u hu

theorem expandSentences_bound {maxLen : Nat} (hML : 1 ≤ maxLen)
    (sentences : List (List Char)) :
    ∀ u ∈ expandSentences sentences maxLen, u.length ≤ maxLen + 1 := by
  intro u hu
  rw [expandSentences, List.mem_flatMap] at hu
  obtain ⟨s, _, hmem⟩ := hu
  exact splitLongSentence_bound hML s u hmem

theorem joinSp_append_singleton (ts : List (List Char)) (s : List Char)
    (h : ts ≠ []) : joinSp (ts ++ [s]) = joinSp ts ++ ' ' :: s := by
  induction ts with
  | nil => exact absurd rfl h
  | cons t ts ih =>
    cases ts with
    | nil => simp [joinSp, List.intercalate]
    | cons t' ts' =>
      have h1 : joinSp ((t :: t' :: ts') ++ [s]) =
          t ++ ' ' :: joinSp ((t' :: ts') ++ [s]) := by
        simp [joinSp, List.intercalate, List.intersperse]
      have h2 : joinSp (t :: t' :: ts') = t ++ ' ' :: joinSp (t' :: ts') := by
        simp [joinSp, List.intercalate, List.intersperse]
      rw [h1, h2, ih (by simp)]
      simp

theorem joinSp_singleton (s : List Char) : joinSp [s] = s := by
  simp [joinSp, List.intercalate]

/-- Invariant of the `smart_grouping` packing loop: accumulated chunks are
short, and `current_len` is exactly the length of `" ".join(current)`. -/
def groupInv (maxLen : Nat) (st : GroupState) : Prop :=
  (∀ c ∈ st.chunks, c.length ≤ maxLen + 1) ∧
  (st.current ≠ [] →
    (joinSp st.current).length = st.currentLen ∧ st.currentLen ≤ maxLen + 1)

theorem groupStep_inv {maxLen : Nat} {st : GroupState} (hinv : groupInv maxLen st)
    (sentText : List Char) (hsent : sentText.length ≤ maxLen + 1) :
    groupInv maxLen (groupStep maxLen st sentText) := by
  obtain ⟨hchunks, hcur⟩ := hinv
  rw [groupStep]
  by_cases hs : pyStrip sentText = []
  · rw [if_pos hs]
    exact ⟨hchunks, hcur⟩
  · rw [if_neg hs]
    simp only []
    by_cases h1 : st.current ≠ [] ∧
        st.currentLen + 1 + (pyStrip sentText).length ≤ maxLen
    · rw [if_pos h1]
      refine ⟨hchunks, fun _ => ⟨?_, ?_⟩⟩
      · show (joinSp (st.current ++ [pyStrip sentText])).length =
          st.currentLen + 1 + (pyStrip sentText).length
        rw [joinSp_append_singleton st.current (pyStrip sentText) h1.1,
          List.length_append, List.length_cons, (hcur h1.1).1]
        omega
      · show st.currentLen + 1 + (pyStrip sentText).length ≤ maxLen + 1
        omega
    · rw [if_neg h1]
      by_cases h2 : st.current = [] ∧ (pyStrip sentText).length ≤ maxLen
      · rw [if_pos h2]
        refine ⟨hchunks, fun _ => ⟨?_, ?_⟩⟩
        · show (joinSp [pyStrip sentText]).length = (pyStrip sentText).length
          rw [joinSp_singleton]
        · show (pyStrip sentText).length ≤ maxLen + 1
          omega
      · rw [if_neg h2]
        refine ⟨?_, fun _ => ⟨?_, ?_⟩⟩
        · show ∀ c ∈ (if st.current ≠ [] then
              st.chunks ++ [pyStrip (joinSp st.current)] else st.chunks),
            c.length ≤ maxLen + 1
          by_cases h3 : st.current ≠ []
          · rw [if_pos h3]
            intro c hc
            rw [List.mem_append] at hc
            rcases hc with hc | hc
            · exact hchunks c hc
            · rw [List.mem_singleton] at hc
              subst hc
              calc (pyStrip (joinSp st.current)).length
                  ≤ (joinSp st.current).length := pyStrip_length_le _
                _ = st.currentLen := (hcur h3).1
                _ ≤ maxLen + 1 := (hcur h3).2
          · rw [if_neg h3]
            exact hchunks
        · show (joinSp [pyStrip sentText]).length = (pyStrip sentText).length
          rw [joinSp_singleton]
        · show (pyStrip sentText).length ≤ maxLen + 1
          calc (pyStrip sentText).length ≤ sentText.length := pyStrip_length_le _
            _ ≤ maxLen + 1 := hsent

theorem foldl_groupStep_inv {maxLen : Nat} :
    ∀ (l : List (List Char)) (st : GroupState), groupInv maxLen st →
      (∀ x ∈ l, x.length ≤ maxLen + 1) →
      groupInv maxLen (l.foldl (groupStep maxLen) st) := by
  intro l
  induction l with
  | nil => intro st h _; exact h
  | cons x l ih =>
    intro st hst hl
    rw [List.foldl_cons]
    exact ih _ (groupStep_inv hst x (hl x (by simp)))
      (fun y hy => hl y (by simp [hy]))

theorem dropLast_filter_sublist (p : α → Bool) :
    ∀ l : List α, ((l.filter p).dropLast).Sublist l.dropLast := by
  intro l
  induction l with
  | nil => simp
  | cons a l ih =>
    rw [List.filter_cons]
    by_cases hp : p a
    · rw [if_pos hp]
      cases hf : l.filter p with
      | nil => simp [hf]
      | cons b t =>
        cases l with
        | nil => simp at hf
        | cons c m =>
          rw [List.dropLast_cons_of_ne_nil (List.cons_ne_nil b t),
            List.dropLast_cons_of_ne_nil (List.cons_ne_nil c m)]
          rw [hf] at ih
          exact ih.cons₂ a
    · rw [if_neg hp]
      cases l with
      | nil => simp
      | cons c m =>
        rw [List.dropLast_cons_of_ne_nil (List.cons_ne_nil c m)]
        exact ih.trans (List.sublist_cons_self a _)

theorem getLastD_mem (l : List α) (d : α) (h : l ≠ []) : l.getLastD d ∈ l := by
  cases l with
  | nil => exact absurd rfl h
  | cons a t =>
    rw [List.getLastD_eq_getLast?,
      List.getLast?_eq_getLast (a :: t) (by simp)]
    exact Option.getD_some ▸ List.getLast_mem _

theorem groupFinish_bounds {maxLen minLen : Nat} {st : GroupState}
    (hinv : groupInv maxLen st) :
    (∀ c ∈ (groupFinish maxLen minLen st).dropLast, c.length ≤ maxLen + 1) ∧
    (∀ c ∈ groupFinish maxLen minLen st, c.length ≤ maxLen + 50) := by
  obtain ⟨hchunks, hcur⟩ := hinv
  rw [groupFinish]
  set chunks :=
    (if st.current = [] then st.chunks
    else
      let last := pyStrip (joinSp st.current)
      if last.length < minLen ∧ st.chunks ≠ [] then
        let prev := st.chunks.getLastD []
        if prev.length + 1 + last.length ≤ maxLen + 50 then
          st.chunks.dropLast ++ [pyStrip ((prev ++ [' ']) ++ last)]
        else
          st.chunks.dropLast ++ [prev, last]
      else st.chunks ++ [last]) with hchdef
  have hbounds : (∀ c ∈ chunks.dropLast, c.length ≤ maxLen + 1) ∧
      (∀ c ∈ chunks, c.length ≤ maxLen + 50) := by
    rw [hchdef]
    by_cases hc0 : st.current = []
    · rw [if_pos hc0]
      exact ⟨fun c hc => hchunks c ((List.dropLast_sublist st.chunks).subset hc),
        fun c hc => le_trans (hchunks c hc) (by omega)⟩
    · rw [if_neg hc0]
      simp only []
      have hlast : (pyStrip (joinSp st.current)).length ≤ maxLen + 1 := by
        calc (pyStrip (joinSp st.current)).length
            ≤ (joinSp st.current).length := pyStrip_length_le _
          _ = st.currentLen := (hcur hc0).1
          _ ≤ maxLen + 1 := (hcur hc0).2
      by_cases h4 : (pyStrip (joinSp st.current)).length < minLen ∧
          st.chunks ≠ []
      · rw [if_pos h4]
        have hprev : st.chunks.getLastD [] ∈ st.chunks :=
          getLastD_mem st.chunks [] h4.2
        by_cases h5 : (st.chunks.getLastD []).length + 1 +
            (pyStrip (joinSp st.current)).length ≤ maxLen + 50
        · rw [if_pos h5]
          constructor
          · intro c hc
            rw [List.dropLast_concat] at hc
            exact hchunks c ((List.dropLast_sublist st.chunks).subset hc)
          · intro c hc
            rw [List.mem_append] at hc
            rcases hc with hc | hc
            · exact le_trans
                (hchunks c ((List.dropLast_sublist st.chunks).subset hc))
                (by omega)
            · rw [List.mem_singleton] at hc
              subst hc
              calc (pyStrip ((st.chunks.getLastD [] ++ [' ']) ++
                    pyStrip (joinSp st.current))).length
                  ≤ ((st.chunks.getLastD [] ++ [' ']) ++
                    pyStrip (joinSp st.current)).length := pyStrip_length_le _
                _ ≤ maxLen + 50 := by
                    rw [List.length_append, List.length_append]
                    simpa using h5
        · rw [if_neg h5]
          constructor
          · intro c hc
            rw [show st.chunks.dropLast ++ [st.chunks.getLastD [],
                pyStrip (joinSp st.current)] =
              (st.chunks.dropLast ++ [st.chunks.getLastD []]) ++
                [pyStrip (joinSp st.current)] by simp,
              List.dropLast_concat, List.mem_append] at hc
            rcases hc with hc | hc
            · exact hchunks c ((List.dropLast_sublist st.chunks).subset hc)
            · rw [List.mem_singleton] at hc
              subst hc
              exact hchunks _ hprev
          · intro c hc
            rw [List.mem_append] at hc
            rcases hc with hc | hc
            · exact le_trans
                (hchunks c ((List.dropLast_sublist st.chunks).subset hc))
                (by omega)
            · rw [List.mem_cons, List.mem_singleton] at hc
              rcases hc with hc | hc
              · subst hc
                exact le_trans (hchunks _ hprev) (by omega)
              · subst hc
                omega
      · rw [if_neg h4]
        constructor
        · intro c hc
          rw [List.dropLast_concat] at hc
          exact hchunks c hc
        · intro c hc
          rw [List.mem_append] at hc
          rcases hc with hc | hc
          · exact le_trans (hchunks c hc) (by omega)
          · rw [List.mem_singleton] at hc
            subst hc
            omega
  constructor
  · intro c hc
    have hsub := (dropLast_filter_sublist (fun c => decide (c ≠ []))
      (chunks.map pyStrip)).subset hc
    rw [← List.map_dropLast] at hsub
    rw [List.mem_map] at hsub
    obtain ⟨y, hy, rfl⟩ := hsub
    exact le_trans (pyStrip_length_le y) (hbounds.1 y hy)
  · intro c hc
    have hm := List.mem_of_mem_filter hc
    rw [List.mem_map] at hm
    obtain ⟨y, hy, rfl⟩ := hm
    exact le_trans (pyStrip_length_le y) (hbounds.2 y hy)

/-- **C3** (corrected). For every sentence list and every `max_len ≥ 1`:
each unit of the overlong-sentence expansion has length at most
`max_len + 1` (not `max_len`: the separator branch cuts at `idx + 1` inside
a window of `max_len + 1` characters); every non-final chunk of
`smart_grouping` is likewise at most `max_len + 1`; every chunk, the final
one included, is at most `max_len + 50` (the orphan-merge slack). -/
theorem claim_C3_chunk_bounds (sentences : List (List Char))
    (maxLen minLen : Nat) (hML : 1 ≤ maxLen) :
    (∀ u ∈ expandSentences sentences maxLen, u.length ≤ maxLen + 1) ∧
    (∀ c ∈ (smartGrouping sentences maxLen minLen).dropLast,
      c.length ≤ maxLen + 1) ∧
    (∀ c ∈ smartGrouping sentences maxLen minLen, c.length ≤ maxLen + 50) := by
  have hexp := expandSentences_bound hML sentences
  have hinv : groupInv maxLen
      ((expandSentences sentences maxLen).foldl (groupStep maxLen)
        ⟨[], [], 0⟩) := by
    refine foldl_groupStep_inv _ _ ⟨?_, ?_⟩ hexp
    · intro c hc
      simp at hc
    · intro hne
      exact absurd rfl hne
  have hfin := @groupFinish_bounds _ minLen _ hinv
  exact ⟨hexp, hfin.1, hfin.2⟩

/-- Witness for C3 at a concrete input. -/
theorem claim_C3_chunk_bounds_witness :
    (1 ≤ 10) ∧
    ((∀ u ∈ expandSentences ["hello world".toList] 10, u.length ≤ 10 + 1) ∧
    (∀ c ∈ (smartGrouping ["hello world".toList] 10 3).dropLast,
      c.length ≤ 10 + 1) ∧
    (∀ c ∈ smartGrouping ["hello world".toList] 10 3, c.length ≤ 10 + 50)) :=
  ⟨by decide, claim_C3_chunk_bounds ["hello world".toList] 10 3 (by decide)⟩

/-- Counterexample to C3 as stated: with `max_len = 10`, the sentence
`"aaaaaaaaaa;bbbbb"` expands into a unit of length 11 > `max_len` (the `;`
sits at window index `max_len`, and `cut = idx + 1` keeps it), and that
unit survives as a non-final chunk of length 11 in the Chunker's output. -/
theorem claim_C3_counterexample :
    (∃ u ∈ splitLongSentence ("aaaaaaaaaa;bbbbb".toList) 10, 10 < u.length) ∧
    (∃ c ∈ (smartGrouping ["aaaaaaaaaa;bbbbb".toList] 10 3).dropLast,
      10 < c.length) := by
  decide

/-! ## The Sequential Aligner (`felix_mirage_v2_align_whisperx.py`)

Text normalisation, tokenisation, `difflib.SequenceMatcher.ratio`, the
window search `_best_match_sequential`, and the per-chunk body of `main`.
-/

/-- Python `str.lower()` on the alphabets this pipeline uses (ASCII Latin,
Cyrillic `А`–`Я` and `Ё`; other characters are untouched, which matches
`lower` on every character that actually occurs here). -/
def pyLower (c : Char) : Char :=
  if 'A' ≤ c ∧ c ≤ 'Z' then Char.ofNat (c.toNat + 32)
  else if 'А' ≤ c ∧ c ≤ 'Я' then Char.ofNat (c.toNat + 32)
  else if c = 'Ё' then 'ё'
  else c

/-- `_WS_RE.sub(" ", text)`: replace every maximal whitespace run by one
space (`prevSpace` marks that the previous character was part of a run). -/
def collapseWsAux (prevSpace : Bool) : List Char → List Char
  | [] => []
  | c :: rest =>
    if isPySpace c then
      (if prevSpace then [] else [' ']) ++ collapseWsAux true rest
    else c :: collapseWsAux false rest

def collapseWs (l : List Char) : List Char := collapseWsAux false l

/-- `_normalize_text`: `\r`, `\n`, `|` to spaces, lowercase, `ё → е`,
collapse whitespace, strip. -/
def normalizeAlign (text : List Char) : List Char :=
  let t1 := text.map (fun c => if c = '\r' ∨ c = '\n' ∨ c = '|' then ' ' else c)
  let t2 := t1.map pyLower
  let t3 := t2.map (fun c => if c = 'ё' then 'е' else c)
  pyStrip (collapseWs t3)

/-- A character matched by `_TOKEN_RE = [0-9A-Za-zА-Яа-яЁё]`
(`А`–`Я` and `а`–`я` are the contiguous block U+0410–U+044F). -/
def isTokenChar (c : Char) : Bool :=
  ('0' ≤ c && c ≤ '9') || ('A' ≤ c && c ≤ 'Z') || ('a' ≤ c && c ≤ 'z') ||
  ('А' ≤ c && c ≤ 'я') || c = 'Ё' || c = 'ё'

/-- Maximal runs of token characters, i.e. `_TOKEN_RE.finditer` (`cur` is
the reversed run being accumulated). -/
def tokenRunsAux (cur : List Char) : List Char → List (List Char)
  | [] => if cur = [] then [] else [cur.reverse]
  | c :: rest =>
    if isTokenChar c then tokenRunsAux (c :: cur) rest
    else (if cur = [] then [] else [cur.reverse]) ++ tokenRunsAux [] rest

def tokenRuns (l : List Char) : List (List Char) := tokenRunsAux [] l

/-- `_tokenize`. -/
def tokenize (text : List Char) : List (List Char) :=
  tokenRuns (normalizeAlign text)

/-- Length of the common run of two lists starting at their heads. -/
def runLen : List Char → List Char → Nat
  | x :: xs, y :: ys => if x = y then runLen xs ys + 1 else 0
  | _, _ => 0

/-- `difflib.SequenceMatcher.find_longest_match` over whole strings with no
junk: the `(i, j, k)` with `a[i:i+k] == b[j:j+k]`, `k` maximal, then `i`
minimal, then `j` minimal (CPython's documented contract; the `autojunk`
popular-element filter only activates for `len(b) ≥ 200` and never on the
strings any claim evaluates). -/
def flm (a b : List Char) : Nat × Nat × Nat :=
  (List.range a.length).foldl (fun best i =>
    (List.range b.length).foldl (fun best j =>
      let k := runLen (a.drop i) (b.drop j)
      if best.2.2 < k then (i, j, k) else best) best) (0, 0, 0)

/-- Sum of the sizes of `get_matching_blocks` (fuel-indexed; the top-level
fuel `a.length + b.length + 1` never runs out because each recursion
strictly shrinks the combined range). -/
def blocksSumF : Nat → List Char → List Char → Nat
  | 0, _, _ => 0
  | fuel + 1, a, b =>
    let r := flm a b
    if r.2.2 = 0 then 0
    else blocksSumF fuel (a.take r.1) (b.take r.2.1) + r.2.2 +
      blocksSumF fuel (a.drop (r.1 + r.2.2)) (b.drop (r.2.1 + r.2.2))

def blocksSum (a b : List Char) : Nat :=
  blocksSumF (a.length + b.length + 1) a b

/-- `SequenceMatcher.ratio() = 2 * M / T`. -/
def smRatio (a b : List Char) : ℚ :=
  2 * (blocksSum a b : ℚ) / ((a.length : ℚ) + (b.length : ℚ))

/-- `_similarity`. -/
def similarity (a b : List Char) : ℚ :=
  if a = [] ∧ b = [] then 1 else smRatio a b

/-- One ASR word (`Word(token, start, end, raw)`; `end` is a Lean keyword,
so the field is `stop`). -/
structure Word where
  token : List Char
  start : ℚ
  stop : ℚ
  raw : List Char
deriving DecidableEq

instance : Inhabited Word := ⟨⟨[], 0, 0, []⟩⟩

/-- `Match(start_i, end_i, sim)` (`end_i` exclusive). -/
structure AMatch where
  start_i : Nat
  end_i : Nat
  sim : ℚ
deriving DecidableEq

/-- Anchored candidate start positions: indices `i ∈ [start_from, len)`
whose token equals the first target token, capped at `max_candidates` when
that is non-zero (Python truthiness of `if max_candidates`). -/
def anchorPositions (transcript : List Word) (first : List Char)
    (startFrom maxCandidates : Nat) : List Nat :=
  let all := (List.range' startFrom (transcript.length - startFrom)).filter
    (fun i => (transcript.getD i default).token = first)
  if maxCandidates ≠ 0 then all.take maxCandidates else all

/-- Sparse fallback probes: `range(start_from, len(transcript), step)` with
`step = max(1, int(len(transcript) / 2000))`. -/
def sparsePositions (transcript : List Word) (startFrom : Nat) : List Nat :=
  let step := max 1 (transcript.length / 2000)
  List.range' startFrom
    ((transcript.length - startFrom + step - 1) / step) step

/-- Window lengths tried at one start position: `range(min_len, max_len+1)`
cut off by the `break` on `end_i > len(transcript)`. -/
def candLengths (transcript : List Word) (startI tgtLen maxExtra : Nat) :
    List Nat :=
  let minL := max 1 (tgtLen - maxExtra)
  let maxL := tgtLen + maxExtra
  (List.range' minL (maxL - minL + 1)).takeWhile
    (fun L => startI + L ≤ transcript.length)

/-- All `(start_i, L)` pairs of `_best_match_sequential`, in loop order. -/
def candPairs (transcript : List Word) (tgtLen startFrom maxExtra
    maxCandidates : Nat) (first : List Char) : List (Nat × Nat) :=
  let anchored := anchorPositions transcript first startFrom maxCandidates
  let positions :=
    if anchored = [] then sparsePositions transcript startFrom else anchored
  positions.flatMap
    (fun p => (candLengths transcript p tgtLen maxExtra).map (fun L => (p, L)))

/-- Evaluation of one candidate window. -/
def evalCand (transcript : List Word) (tgtJoin : List Char) (p : Nat × Nat) :
    AMatch :=
  let candTokens := ((transcript.drop p.1).take p.2).map Word.token
  ⟨p.1, p.1 + p.2, similarity (joinSp candTokens) tgtJoin⟩

/-- The `if best is None or sim > best.sim` selection fold. -/
def bestFold (cands : List AMatch) : Option AMatch :=
  cands.foldl (fun best m =>
    match best with
    | none => some m
    | some b => if b.sim < m.sim then some m else some b) none

/-- `_best_match_sequential`. -/
def bestMatchSequential (transcript : List Word)
    (targetTokens : List (List Char)) (startFrom maxExtra maxCandidates : Nat) :
    Option AMatch :=
  if targetTokens = [] then none
  else
    bestFold ((candPairs transcript targetTokens.length startFrom maxExtra
      maxCandidates (targetTokens.headD [])).map
      (evalCand transcript (joinSp targetTokens)))

/-- Round-half-to-even to an integer (Python `round`). -/
def rndHalfEven (q : ℚ) : ℤ :=
  if q - ⌊q⌋ < 1/2 then ⌊q⌋
  else if 1/2 < q - ⌊q⌋ then ⌊q⌋ + 1
  else if ⌊q⌋ % 2 = 0 then ⌊q⌋ else ⌊q⌋ + 1

/-- Python `round(q, digits)` on the exact rational value. -/
def roundTo (q : ℚ) (digits : Nat) : ℚ :=
  (rndHalfEven (q * 10 ^ digits) : ℚ) / 10 ^ digits

/-- `_clamp(v, lo, hi) = max(lo, min(hi, v))`. -/
def clamp (v lo hi : ℚ) : ℚ := max lo (min hi v)

theorem rndHalfEven_bounds (q : ℚ) :
    ⌊q⌋ ≤ rndHalfEven q ∧ rndHalfEven q ≤ ⌊q⌋ + 1 := by
  rw [rndHalfEven]
  split
  · omega
  split
  · omega
  split <;> omega

theorem rndHalfEven_le_of_le {q₁ q₂ : ℚ} (h : q₁ ≤ q₂) :
    rndHalfEven q₁ ≤ rndHalfEven q₂ := by
  have hb₁ := rndHalfEven_bounds q₁
  have hb₂ := rndHalfEven_bounds q₂
  have hf : ⌊q₁⌋ ≤ ⌊q₂⌋ := Int.floor_le_floor h
  rcases lt_or_eq_of_le hf with hlt | heq
  · omega
  · rw [rndHalfEven, rndHalfEven, ← heq]
    by_cases h1 : q₁ - (⌊q₁⌋ : ℚ) < 1/2
    · rw [if_pos h1]
      split
      · omega
      · split
        · omega
        · split <;> omega
    · rw [if_neg h1]
      have hc : ((⌊q₁⌋ : ℤ) : ℚ) = ((⌊q₂⌋ : ℤ) : ℚ) := by rw [heq]
      have h2 : ¬ (q₂ - (⌊q₁⌋ : ℚ) < 1/2) := by
        rw [hc]
        have : q₁ - (⌊q₂⌋ : ℚ) ≤ q₂ - (⌊q₂⌋ : ℚ) := by linarith
        rw [hc] at h1
        linarith
      rw [if_neg h2]
      by_cases h3 : 1/2 < q₁ - (⌊q₁⌋ : ℚ)
      · rw [if_pos h3, if_pos (by linarith : 1/2 < q₂ - (⌊q₁⌋ : ℚ))]
      · rw [if_neg h3]
        by_cases h4 : 1/2 < q₂ - (⌊q₁⌋ : ℚ)
        · rw [if_pos h4]
          split <;> omega
        · rw [if_neg h4]

theorem roundTo_nonneg {q : ℚ} (h : 0 ≤ q) (d : Nat) : 0 ≤ roundTo q d := by
  rw [roundTo]
  apply div_nonneg _ (by positivity)
  have h0 : (0 : ℤ) ≤ ⌊q * 10 ^ d⌋ := Int.floor_nonneg.mpr (by positivity)
  have := rndHalfEven_bounds (q * 10 ^ d)
  exact_mod_cast le_trans h0 this.1

theorem roundTo_mono {q₁ q₂ : ℚ} (h : q₁ ≤ q₂) (d : Nat) :
    roundTo q₁ d ≤ roundTo q₂ d := by
  rw [roundTo, roundTo]
  apply div_le_div_of_nonneg_right _ (by positivity)
  exact_mod_cast rndHalfEven_le_of_le
    (mul_le_mul_of_nonneg_right h (by positivity))

/-- Record status in the emitted cutlist. -/
inductive AStatus where
  | ok
  | unmatched
  | bad_times
deriving DecidableEq

/-- One emitted cutlist record (an `AlignmentRecord`): `start`/`end` (the
latter named `stop?` — `end` is a Lean keyword), `text`, `sim`, `status`. -/
structure ARec where
  srcAudio : List Char
  start? : Option ℚ
  stop? : Option ℚ
  text : List Char
  sim? : Option ℚ
  status : AStatus
deriving DecidableEq

/-- The configurable parameters of the aligner `main` loop. -/
structure AlignParams where
  minSim : ℚ
  padSeconds : ℚ
  maxExtra : Nat
  maxCandidates : Nat

/-- The body of the aligner's per-chunk loop (`main`, lines 310–361): run
`_best_match_sequential` from the cursor, emit one record, and return the
new cursor.  Also returns the raw match for reasoning about matched spans. -/
def processChunk (srcAudio : List Char) (words : List Word) (P : AlignParams)
    (cursor : Nat) (chunk : List Char) : ARec × Option AMatch × Nat :=
  match bestMatchSequential words (tokenize chunk) cursor P.maxExtra
    P.maxCandidates with
  | none =>
    (⟨srcAudio, none, none, chunk, none, AStatus.unmatched⟩, none, cursor)
  | some m =>
    if m.sim < P.minSim then
      (⟨srcAudio, none, none, chunk, some m.sim, AStatus.unmatched⟩,
        some m, cursor)
    else
      let startT := clamp ((words.getD m.start_i default).start - P.padSeconds)
        0 (10 ^ 9)
      let stopT := clamp ((words.getD (m.end_i - 1) default).stop + P.padSeconds)
        0 (10 ^ 9)
      if stopT ≤ startT then
        (⟨srcAudio, none, none, chunk, some m.sim, AStatus.bad_times⟩,
          some m, cursor)
      else
        (⟨srcAudio, some (roundTo startT 3), some (roundTo stopT 3), chunk,
          some (roundTo m.sim 4), AStatus.ok⟩, some m, max cursor m.end_i)

/-- The aligner's loop over the chunks of one audio file: strip each chunk,
skip empties, thread the cursor through `processChunk`.  Returns the trace
of `(record, match)` pairs and the final cursor. -/
def alignChunks (srcAudio : List Char) (words : List Word) (P : AlignParams) :
    Nat → List (List Char) → List (ARec × Option AMatch) × Nat
  | cursor, [] => ([], cursor)
  | cursor, chunk :: rest =>
    let c := pyStrip chunk
    if c = [] then alignChunks srcAudio words P cursor rest
    else
      let step := processChunk srcAudio words P cursor c
      let tail := alignChunks srcAudio words P step.2.2 rest
      ((step.1, step.2.1) :: tail.1, tail.2)

/-- "First maximum": every candidate scores at most `m.sim`, and every
candidate strictly before `m` in fold order scores strictly less — i.e.
`m` is the first candidate attaining the maximal similarity. -/
def FirstMax (cands : List AMatch) (m : AMatch) : Prop :=
  (∀ c ∈ cands, c.sim ≤ m.sim) ∧
  ∃ pre post, cands = pre ++ m :: post ∧ ∀ c ∈ pre, c.sim < m.sim

theorem foldl_bestStep_spec :
    ∀ (cands : List AMatch) (b m : AMatch),
      cands.foldl (fun best m =>
        match best with
        | none => some m
        | some b => if b.sim < m.sim then some m else some b) (some b) = some m →
      (m = b ∧ ∀ c ∈ cands, c.sim ≤ b.sim) ∨
      (b.sim < m.sim ∧ (∀ c ∈ cands, c.sim ≤ m.sim) ∧
        ∃ pre post, cands = pre ++ m :: post ∧ ∀ c ∈ pre, c.sim < m.sim) := by
  intro cands
  induction cands with
  | nil =>
    intro b m h
    rw [List.foldl_nil] at h
    left
    exact ⟨(Option.some.inj h).symm, by simp⟩
  | cons c rest ih =>
    intro b m h
    rw [List.foldl_cons] at h
    by_cases hbc : b.sim < c.sim
    · rw [show (match some b with
          | none => some c
          | some b => if b.sim < c.sim then some c else some b) = some c by
          simp [hbc]] at h
      rcases ih c m h with ⟨rfl, hall⟩ | ⟨hlt, hall, pre, post, heq, hpre⟩
      · right
        refine ⟨hbc, ?_, [], rest, rfl, by simp⟩
        intro x hx
        rcases List.mem_cons.mp hx with rfl | hx
        · exact le_refl _
        · exact hall x hx
      · right
        refine ⟨lt_trans hbc hlt, ?_, c :: pre, post, by rw [heq]; rfl, ?_⟩
        · intro x hx
          rcases List.mem_cons.mp hx with rfl | hx
          · exact le_of_lt hlt
          · exact hall x hx
        · intro x hx
          rcases List.mem_cons.mp hx with rfl | hx
          · exact hlt
          · exact hpre x hx
    · rw [show (match some b with
          | none => some c
          | some b => if b.sim < c.sim then some c else some b) = some b by
          simp [hbc]] at h
      rcases ih b m h with ⟨rfl, hall⟩ | ⟨hlt, hall, pre, post, heq, hpre⟩
      · left
        refine ⟨rfl, ?_⟩
        intro x hx
        rcases List.mem_cons.mp hx with rfl | hx
        · exact le_of_not_lt hbc
        · exact hall x hx
      · right
        refine ⟨hlt, ?_, c :: pre, post, by rw [heq]; rfl, ?_⟩
        · intro x hx
          rcases List.mem_cons.mp hx with rfl | hx
          · exact le_of_lt (lt_of_le_of_lt (le_of_not_lt hbc) hlt)
          · exact hall x hx
        · intro x hx
          rcases List.mem_cons.mp hx with rfl | hx
          · exact lt_of_le_of_lt (le_of_not_lt hbc) hlt
          · exact hpre x hx

theorem bestFold_spec (cands : List AMatch) (m : AMatch)
    (h : bestFold cands = some m) : FirstMax cands m := by
  cases cands with
  | nil => exact absurd h (by simp [bestFold])
  | cons c rest =>
    rw [bestFold, List.foldl_cons] at h
    rcases foldl_bestStep_spec rest c m h with ⟨rfl, hall⟩ |
      ⟨hcm, hall, pre, post, heq, hpre⟩
    · refine ⟨?_, [], rest, rfl, by simp⟩
      intro x hx
      rcases List.mem_cons.mp hx with rfl | hx
      · exact le_refl _
      · exact hall x hx
    · refine ⟨?_, c :: pre, post, by rw [heq]; rfl, ?_⟩
      · intro x hx
        rcases List.mem_cons.mp hx with rfl | hx
        · exact le_of_lt hcm
        · exact hall x hx
      · intro x hx
        rcases List.mem_cons.mp hx with rfl | hx
        · exact hcm
        · exact hpre x hx

theorem pairwise_lt_range' (s n step : Nat) (h : 0 < step) :
    (List.range' s n step).Pairwise (· < ·) := by
  induction n generalizing s with
  | zero => simp
  | succ n ih =>
    rw [List.range'_succ]
    refine List.Pairwise.cons ?_ (ih (s + step))
    intro b hb
    obtain ⟨i, hi, rfl⟩ := List.mem_range'.mp hb
    omega

theorem anchorPositions_sorted (transcript : List Word) (first : List Char)
    (startFrom maxCandidates : Nat) :
    (anchorPositions transcript first startFrom maxCandidates).Pairwise
      (· < ·) := by
  rw [anchorPositions]
  have h1 := (pairwise_lt_range' startFrom (transcript.length - startFrom) 1
    (by omega)).filter
    (fun i => decide ((transcript.getD i default).token = first))
  by_cases h : maxCandidates ≠ 0
  · rw [if_pos h]
    exact h1.sublist (List.take_sublist _ _)
  · rw [if_neg h]
    exact h1

theorem anchorPositions_mem (transcript : List Word) (first : List Char)
    (startFrom maxCandidates : Nat) :
    ∀ i ∈ anchorPositions transcript first startFrom maxCandidates,
      startFrom ≤ i ∧ i < transcript.length := by
  rw [anchorPositions]
  intro i hi
  have hmem : i ∈ (List.range' startFrom (transcript.length - startFrom)).filter
      (fun i => decide ((transcript.getD i default).token = first)) := by
    by_cases h : maxCandidates ≠ 0
    · rw [if_pos h] at hi
      exact (List.take_sublist _ _).subset hi
    · rw [if_neg h] at hi
      exact hi
  have := List.mem_range'_1.mp (List.mem_of_mem_filter hmem)
  omega

theorem sparsePositions_sorted (transcript : List Word) (startFrom : Nat) :
    (sparsePositions transcript startFrom).Pairwise (· < ·) := by
  rw [sparsePositions]
  exact pairwise_lt_range' _ _ _ (by omega)

theorem sparsePositions_mem (transcript : List Word) (startFrom : Nat) :
    ∀ i ∈ sparsePositions transcript startFrom,
      startFrom ≤ i ∧ i < transcript.length := by
  rw [sparsePositions]
  intro i hi
  obtain ⟨t, ht, rfl⟩ := List.mem_range'.mp hi
  set step := max 1 (transcript.length / 2000) with hstep
  have hstep1 : 1 ≤ step := by rw [hstep]; omega
  constructor
  · omega
  · -- startFrom + step * t < transcript.length
    set d := transcript.length - startFrom with hd
    have hcount : t < (d + step - 1) / step := ht
    have hdpos : 0 < d := by
      by_contra hc
      rw [hd] at hc
      have : (d + step - 1) / step = 0 := by
        apply Nat.div_eq_of_lt
        omega
      omega
    have hmul : (d + step - 1) / step * step ≤ d + step - 1 :=
      Nat.div_mul_le_self _ _
    have ht1 : t + 1 ≤ (d + step - 1) / step := hcount
    have hmul2 : (t + 1) * step ≤ (d + step - 1) / step * step :=
      Nat.mul_le_mul_right step ht1
    have : (t + 1) * step ≤ d + step - 1 := le_trans hmul2 hmul
    rw [Nat.add_mul, Nat.one_mul] at this
    have hts : step * t = t * step := Nat.mul_comm _ _
    omega

theorem candLengths_sorted (transcript : List Word) (p tgtLen maxExtra : Nat) :
    (candLengths transcript p tgtLen maxExtra).Pairwise (· < ·) := by
  rw [candLengths]
  exact (pairwise_lt_range' _ _ 1 (by omega)).sublist
    (List.takeWhile_sublist _)

theorem candLengths_mem (transcript : List Word) (p tgtLen maxExtra : Nat) :
    ∀ L ∈ candLengths transcript p tgtLen maxExtra,
      1 ≤ L ∧ p + L ≤ transcript.length := by
  rw [candLengths]
  intro L hL
  have hpred := List.mem_takeWhile_imp hL
  have hmem := (List.takeWhile_sublist _).subset hL
  have := List.mem_range'.mp hmem
  obtain ⟨i, _, rfl⟩ := this
  refine ⟨by omega, by simpa using hpred⟩

/-- The lexicographic "found earlier" order on `(start position, window
length)` pairs: earlier position, or same position and shorter window. -/
def pairLex (p q : Nat × Nat) : Prop :=
  p.1 < q.1 ∨ (p.1 = q.1 ∧ p.2 < q.2)

theorem candPairs_sorted (transcript : List Word)
    (tgtLen startFrom maxExtra maxCandidates : Nat) (first : List Char) :
    (candPairs transcript tgtLen startFrom maxExtra maxCandidates
      first).Pairwise pairLex := by
  rw [candPairs]
  have hpos : (if anchorPositions transcript first startFrom maxCandidates = []
      then sparsePositions transcript startFrom
      else anchorPositions transcript first startFrom
        maxCandidates).Pairwise (· < ·) := by
    split
    · exact sparsePositions_sorted transcript startFrom
    · exact anchorPositions_sorted transcript first startFrom maxCandidates
  set positions := if anchorPositions transcript first startFrom
      maxCandidates = [] then sparsePositions transcript startFrom
    else anchorPositions transcript first startFrom maxCandidates
  clear_value positions
  induction positions with
  | nil => simp
  | cons p ps ih =>
    rw [List.flatMap_cons, List.pairwise_append]
    refine ⟨?_, ih hpos.tail, ?_⟩
    · exact (candLengths_sorted transcript p tgtLen maxExtra).map _
        (fun {a b} hab => Or.inr ⟨rfl, hab⟩)
    · intro x hx y hy
      obtain ⟨L, _, rfl⟩ := List.mem_map.mp hx
      rw [List.mem_flatMap] at hy
      obtain ⟨q, hq, hyq⟩ := hy
      obtain ⟨L', _, rfl⟩ := List.mem_map.mp hyq
      left
      exact (List.pairwise_cons.mp hpos).1 q hq

theorem candPairs_mem (transcript : List Word)
    (tgtLen startFrom maxExtra maxCandidates : Nat) (first : List Char) :
    ∀ pL ∈ candPairs transcript tgtLen startFrom maxExtra maxCandidates first,
      startFrom ≤ pL.1 ∧ pL.1 < transcript.length ∧ 1 ≤ pL.2 ∧
        pL.1 + pL.2 ≤ transcript.length := by
  rw [candPairs]
  intro pL hpL
  rw [List.mem_flatMap] at hpL
  obtain ⟨p, hp, hmem⟩ := hpL
  obtain ⟨L, hL, rfl⟩ := List.mem_map.mp hmem
  have hLb := candLengths_mem transcript p tgtLen maxExtra L hL
  have hpb : startFrom ≤ p ∧ p < transcript.length := by
    by_cases h : anchorPositions transcript first startFrom maxCandidates = []
    · rw [if_pos h] at hp
      exact sparsePositions_mem transcript startFrom p hp
    · rw [if_neg h] at hp
      exact anchorPositions_mem transcript first startFrom maxCandidates p hp
  exact ⟨hpb.1, hpb.2, hLb.1, hLb.2⟩

/-- The "found earlier, tighter" order on matches. -/
def matchLex (a b : AMatch) : Prop :=
  a.start_i < b.start_i ∨ (a.start_i = b.start_i ∧ a.end_i < b.end_i)

theorem bestMatch_ne_nil {transcript : List Word} {tgt : List (List Char)}
    {s e c : Nat} {m : AMatch}
    (h : bestMatchSequential transcript tgt s e c = some m) : tgt ≠ [] := by
  intro hc
  rw [hc, bestMatchSequential, if_pos rfl] at h
  exact Option.noConfusion h

theorem bestMatch_eq_bestFold {transcript : List Word}
    {tgt : List (List Char)} {s e c : Nat} (hne : tgt ≠ []) :
    bestMatchSequential transcript tgt s e c =
      bestFold ((candPairs transcript tgt.length s e c (tgt.headD [])).map
        (evalCand transcript (joinSp tgt))) := by
  rw [bestMatchSequential, if_neg hne]

theorem evalCand_start (transcript : List Word) (tj : List Char)
    (pL : Nat × Nat) : (evalCand transcript tj pL).start_i = pL.1 := rfl

theorem evalCand_end (transcript : List Word) (tj : List Char)
    (pL : Nat × Nat) : (evalCand transcript tj pL).end_i = pL.1 + pL.2 := rfl

theorem bestMatch_some_bounds {transcript : List Word}
    {tgt : List (List Char)} {s e c : Nat} {m : AMatch}
    (h : bestMatchSequential transcript tgt s e c = some m) :
    s ≤ m.start_i ∧ m.start_i < m.end_i ∧ m.end_i ≤ transcript.length := by
  have hne := bestMatch_ne_nil h
  rw [bestMatch_eq_bestFold hne] at h
  obtain ⟨hall, pre, post, heq, hpre⟩ := bestFold_spec _ _ h
  have hm : m ∈ (candPairs transcript tgt.length s e c (tgt.headD [])).map
      (evalCand transcript (joinSp tgt)) := by
    rw [heq]
    simp
  obtain ⟨pL, hpL, rfl⟩ := List.mem_map.mp hm
  have hb := candPairs_mem transcript tgt.length s e c (tgt.headD []) pL hpL
  rw [evalCand_start, evalCand_end]
  omega

/-- **C9** (confirmed). In the window search, the returned match is the
first candidate (in loop order: ascending start position, then ascending
window length) attaining the maximal similarity: every candidate scores at
most `m.sim`; every candidate strictly before `m` scores strictly less
(a later candidate replaces the current best only when strictly greater);
and consequently every other candidate with the same maximal score starts
later, or starts at the same position with a window at least as long. -/
theorem claim_C9_window_tie_break (transcript : List Word)
    (targetTokens : List (List Char)) (startFrom maxExtra maxCandidates : Nat)
    (m : AMatch)
    (h : bestMatchSequential transcript targetTokens startFrom maxExtra
      maxCandidates = some m) :
    (∀ c ∈ (candPairs transcript targetTokens.length startFrom maxExtra
        maxCandidates (targetTokens.headD [])).map
        (evalCand transcript (joinSp targetTokens)), c.sim ≤ m.sim) ∧
    (∃ pre post, (candPairs transcript targetTokens.length startFrom maxExtra
        maxCandidates (targetTokens.headD [])).map
        (evalCand transcript (joinSp targetTokens)) = pre ++ m :: post ∧
      ∀ c ∈ pre, c.sim < m.sim) ∧
    (∀ c ∈ (candPairs transcript targetTokens.length startFrom maxExtra
        maxCandidates (targetTokens.headD [])).map
        (evalCand transcript (joinSp targetTokens)), c.sim = m.sim →
      m.start_i < c.start_i ∨
        (m.start_i = c.start_i ∧ m.end_i ≤ c.end_i)) := by
  have hne := bestMatch_ne_nil h
  rw [bestMatch_eq_bestFold hne] at h
  obtain ⟨hall, pre, post, heq, hpre⟩ := bestFold_spec _ _ h
  have hsorted : ((candPairs transcript targetTokens.length startFrom maxExtra
      maxCandidates (targetTokens.headD [])).map
      (evalCand transcript (joinSp targetTokens))).Pairwise matchLex := by
    refine (candPairs_sorted transcript targetTokens.length startFrom maxExtra
      maxCandidates (targetTokens.headD [])).map _ ?_
    intro a b hab
    rcases hab with hab | ⟨hab1, hab2⟩
    · left
      rw [evalCand_start, evalCand_start]
      exact hab
    · right
      rw [evalCand_start, evalCand_start, evalCand_end, evalCand_end]
      omega
  refine ⟨hall, ⟨pre, post, heq, hpre⟩, ?_⟩
  intro c hc hsim
  rw [heq] at hc hsorted
  rcases List.mem_append.mp hc with hc | hc
  · exact absurd hsim (ne_of_lt (hpre c hc))
  · rcases List.mem_cons.mp hc with rfl | hc
    · right
      exact ⟨rfl, le_refl _⟩
    · have hpost := (List.pairwise_append.mp hsorted).2.1
      have := (List.pairwise_cons.mp hpost).1 c hc
      rcases this with h1 | ⟨h1, h2⟩
      · exact Or.inl h1
      · exact Or.inr ⟨h1, le_of_lt h2⟩

/-- Witness for C9 at a concrete input: one word, one matching token. -/
theorem claim_C9_window_tie_break_witness :
    bestMatchSequential [⟨['a'], 0, 1, ['a']⟩] [['a']] 0 4 2000 =
      some ⟨0, 1, 1⟩ ∧
    (∀ c ∈ (candPairs [⟨['a'], 0, 1, ['a']⟩] 1 0 4 2000 ['a']).map
        (evalCand [⟨['a'], 0, 1, ['a']⟩] (joinSp [['a']])),
      c.sim ≤ (⟨0, 1, 1⟩ : AMatch).sim) := by
  have h : bestMatchSequential [⟨['a'], 0, 1, ['a']⟩] [['a']] 0 4 2000 =
      some ⟨0, 1, 1⟩ := by
    with_unfolding_all decide
  exact ⟨h, (claim_C9_window_tie_break [⟨['a'], 0, 1, ['a']⟩] [['a']]
    0 4 2000 ⟨0, 1, 1⟩ h).1⟩

theorem bestMatch_none_of_cursor_past (transcript : List Word)
    (tgt : List (List Char)) (s e c : Nat) (h : transcript.length ≤ s) :
    bestMatchSequential transcript tgt s e c = none := by
  by_cases hne : tgt = []
  · rw [hne, bestMatchSequential, if_pos rfl]
  · rw [bestMatch_eq_bestFold hne]
    have hanch : anchorPositions transcript (tgt.headD []) s c = [] := by
      rw [anchorPositions]
      have h0 : transcript.length - s = 0 := by omega
      rw [h0]
      simp
    have hsparse : sparsePositions transcript s = [] := by
      rw [sparsePositions]
      have hstep : 1 ≤ max 1 (transcript.length / 2000) := le_max_left _ _
      have hz : (transcript.length - s + max 1 (transcript.length / 2000) - 1) /
          max 1 (transcript.length / 2000) = 0 := by
        apply Nat.div_eq_of_lt
        omega
      rw [hz]
      rfl
    simp only [candPairs, hanch, hsparse]
    simp [bestFold]

theorem processChunk_eq_of_none {srcAudio : List Char} {words : List Word}
    {P : AlignParams} {cursor : Nat} {chunk : List Char}
    (hm : bestMatchSequential words (tokenize chunk) cursor P.maxExtra
      P.maxCandidates = none) :
    processChunk srcAudio words P cursor chunk =
      (⟨srcAudio, none, none, chunk, none, AStatus.unmatched⟩, none, cursor) := by
  simp only [processChunk, hm]

theorem processChunk_eq_of_low {srcAudio : List Char} {words : List Word}
    {P : AlignParams} {cursor : Nat} {chunk : List Char} {m : AMatch}
    (hm : bestMatchSequential words (tokenize chunk) cursor P.maxExtra
      P.maxCandidates = some m) (hlow : m.sim < P.minSim) :
    processChunk srcAudio words P cursor chunk =
      (⟨srcAudio, none, none, chunk, some m.sim, AStatus.unmatched⟩,
        some m, cursor) := by
  simp only [processChunk, hm]
  rw [if_pos hlow]

theorem processChunk_eq_of_bad {srcAudio : List Char} {words : List Word}
    {P : AlignParams} {cursor : Nat} {chunk : List Char} {m : AMatch}
    (hm : bestMatchSequential words (tokenize chunk) cursor P.maxExtra
      P.maxCandidates = some m) (hge : P.minSim ≤ m.sim)
    (hbad : clamp ((words.getD (m.end_i - 1) default).stop + P.padSeconds)
        0 (10 ^ 9) ≤
      clamp ((words.getD m.start_i default).start - P.padSeconds) 0 (10 ^ 9)) :
    processChunk srcAudio words P cursor chunk =
      (⟨srcAudio, none, none, chunk, some m.sim, AStatus.bad_times⟩,
        some m, cursor) := by
  simp only [processChunk, hm]
  rw [if_neg (not_lt.mpr hge), if_pos hbad]

theorem processChunk_eq_of_ok {srcAudio : List Char} {words : List Word}
    {P : AlignParams} {cursor : Nat} {chunk : List Char} {m : AMatch}
    (hm : bestMatchSequential words (tokenize chunk) cursor P.maxExtra
      P.maxCandidates = some m) (hge : P.minSim ≤ m.sim)
    (hok : clamp ((words.getD m.start_i default).start - P.padSeconds)
        0 (10 ^ 9) <
      clamp ((words.getD (m.end_i - 1) default).stop + P.padSeconds)
        0 (10 ^ 9)) :
    processChunk srcAudio words P cursor chunk =
      (⟨srcAudio,
        some (roundTo (clamp ((words.getD m.start_i default).start -
          P.padSeconds) 0 (10 ^ 9)) 3),
        some (roundTo (clamp ((words.getD (m.end_i - 1) default).stop +
          P.padSeconds) 0 (10 ^ 9)) 3),
        chunk, some (roundTo m.sim 4), AStatus.ok⟩,
        some m, max cursor m.end_i) := by
  simp only [processChunk, hm]
  rw [if_neg (not_lt.mpr hge), if_neg (not_le.mpr hok)]

/-- **C10** (confirmed). A chunk that yields no candidate window at all —
its normalised text has no alphanumeric token, or the cursor has already
passed the last word — produces an `unmatched` record whose `start`, `end`
and `sim` fields are all null, the cursor is unchanged, and the remaining
chunks are still processed (from that same cursor).  The aligner is a total
function, so no exception is raised. -/
theorem claim_C10_no_candidates (srcAudio : List Char) (words : List Word)
    (P : AlignParams) (cursor : Nat) (chunk : List Char)
    (rest : List (List Char)) (hne : pyStrip chunk ≠ [])
    (h : tokenize (pyStrip chunk) = [] ∨ words.length ≤ cursor) :
    alignChunks srcAudio words P cursor (chunk :: rest) =
      ((⟨srcAudio, none, none, pyStrip chunk, none, AStatus.unmatched⟩,
          none) :: (alignChunks srcAudio words P cursor rest).1,
        (alignChunks srcAudio words P cursor rest).2) := by
  have hm : bestMatchSequential words (tokenize (pyStrip chunk)) cursor
      P.maxExtra P.maxCandidates = none := by
    rcases h with h | h
    · rw [h, bestMatchSequential, if_pos rfl]
    · exact bestMatch_none_of_cursor_past words _ cursor P.maxExtra
        P.maxCandidates h
  simp only [alignChunks, if_neg hne, processChunk_eq_of_none hm]

/-- Witness for C10 at a concrete input: the chunk `"..."` strips to a
non-empty string with no alphanumeric token. -/
theorem claim_C10_no_candidates_witness :
    pyStrip ("...".toList) ≠ [] ∧
    (tokenize (pyStrip ("...".toList)) = [] ∨
      ([⟨['a'], 0, 1, ['a']⟩] : List Word).length ≤ 0) ∧
    alignChunks [] [⟨['a'], 0, 1, ['a']⟩] ⟨8/10, 1/10, 4, 2000⟩ 0
        ["...".toList, ['a']] =
      ((⟨[], none, none, pyStrip ("...".toList), none, AStatus.unmatched⟩,
          none) ::
        (alignChunks [] [⟨['a'], 0, 1, ['a']⟩] ⟨8/10, 1/10, 4, 2000⟩ 0
          [['a']]).1,
        (alignChunks [] [⟨['a'], 0, 1, ['a']⟩] ⟨8/10, 1/10, 4, 2000⟩ 0
          [['a']]).2) :=
  ⟨by decide, by decide,
    claim_C10_no_candidates [] [⟨['a'], 0, 1, ['a']⟩] ⟨8/10, 1/10, 4, 2000⟩
      0 ("...".toList) [['a']] (by decide) (by decide)⟩

/-- The matched word-index spans of the accepted (`status=ok`) records of a
trace. -/
def okSpans (trace : List (ARec × Option AMatch)) : List AMatch :=
  trace.filterMap (fun e => if e.1.status = AStatus.ok then e.2 else none)

theorem processChunk_cursor (srcAudio : List Char) (words : List Word)
    (P : AlignParams) (cursor : Nat) (chunk : List Char) :
    ((processChunk srcAudio words P cursor chunk).1.status = AStatus.ok →
      ∃ m, (processChunk srcAudio words P cursor chunk).2.1 = some m ∧
        bestMatchSequential words (tokenize chunk) cursor P.maxExtra
          P.maxCandidates = some m ∧
        (processChunk srcAudio words P cursor chunk).2.2 =
          max cursor m.end_i) ∧
    ((processChunk srcAudio words P cursor chunk).1.status ≠ AStatus.ok →
      (processChunk srcAudio words P cursor chunk).2.2 = cursor) := by
  match hm : bestMatchSequential words (tokenize chunk) cursor P.maxExtra
    P.maxCandidates with
  | none =>
    rw [processChunk_eq_of_none hm]
    exact ⟨fun h => absurd h (by simp), fun _ => rfl⟩
  | some m =>
    by_cases hlow : m.sim < P.minSim
    · rw [processChunk_eq_of_low hm hlow]
      exact ⟨fun h => absurd h (by simp), fun _ => rfl⟩
    · by_cases hbad : clamp ((words.getD (m.end_i - 1) default).stop +
          P.padSeconds) 0 (10 ^ 9) ≤
          clamp ((words.getD m.start_i default).start - P.padSeconds)
            0 (10 ^ 9)
      · rw [processChunk_eq_of_bad hm (not_lt.mp hlow) hbad]
        exact ⟨fun h => absurd h (by simp), fun _ => rfl⟩
      · constructor
        · intro _
          refine ⟨m, ?_, rfl, ?_⟩
          · rw [processChunk_eq_of_ok hm (not_lt.mp hlow) (not_le.mp hbad)]
          · rw [processChunk_eq_of_ok hm (not_lt.mp hlow) (not_le.mp hbad)]
        · intro h
          rw [processChunk_eq_of_ok hm (not_lt.mp hlow) (not_le.mp hbad)] at h
          exact absurd rfl h

theorem filterMap_cons_toList (f : α → Option β) (a : α) (l : List α) :
    (a :: l).filterMap f = (f a).toList ++ l.filterMap f := by
  cases h : f a <;> simp [List.filterMap_cons, h]

theorem alignChunks_okSpans (srcAudio : List Char) (words : List Word)
    (P : AlignParams) :
    ∀ (chunks : List (List Char)) (cursor : Nat),
      (∀ m ∈ okSpans (alignChunks srcAudio words P cursor chunks).1,
        cursor ≤ m.start_i) ∧
      List.Chain' (fun a b => a.start_i ≤ b.start_i)
        (okSpans (alignChunks srcAudio words P cursor chunks).1) ∧
      cursor ≤ (alignChunks srcAudio words P cursor chunks).2 := by
  intro chunks
  induction chunks with
  | nil =>
    intro cursor
    refine ⟨?_, ?_, le_refl _⟩
    · intro m hm
      simp [alignChunks, okSpans] at hm
    · simp [alignChunks, okSpans]
  | cons chunk rest ih =>
    intro cursor
    by_cases hempty : pyStrip chunk = []
    · simpa only [alignChunks, if_pos hempty] using ih cursor
    · have hstep := processChunk_cursor srcAudio words P cursor
        (pyStrip chunk)
      simp only [alignChunks, if_neg hempty]
      set out := processChunk srcAudio words P cursor (pyStrip chunk)
        with hout
      have ihnext := ih out.2.2
      have hspans : okSpans ((out.1, out.2.1) ::
          (alignChunks srcAudio words P out.2.2 rest).1) =
          (if out.1.status = AStatus.ok then out.2.1 else none).toList ++
            okSpans (alignChunks srcAudio words P out.2.2 rest).1 := by
        rw [okSpans, filterMap_cons_toList]
        rfl
      by_cases hok : out.1.status = AStatus.ok
      · obtain ⟨m, hm1, hm2, hm3⟩ := hstep.1 hok
        have hb := bestMatch_some_bounds hm2
        have hcursor : cursor ≤ out.2.2 := by rw [hm3]; omega
        rw [hspans, if_pos hok, hm1, Option.toList_some,
          List.singleton_append]
        refine ⟨?_, ?_, by have := ihnext.2.2; omega⟩
        · intro x hx
          rcases List.mem_cons.mp hx with rfl | hx
          · omega
          · have := ihnext.1 x hx
            omega
        · rw [List.chain'_cons']
          refine ⟨?_, ihnext.2.1⟩
          intro b hb2
          have hbmem : b ∈ okSpans (alignChunks srcAudio words P out.2.2
              rest).1 := by
            exact List.mem_of_mem_head? hb2
          have := ihnext.1 b hbmem
          rw [hm3] at this
          omega
      · have hcursor : out.2.2 = cursor := hstep.2 hok
        rw [hspans, if_neg hok, Option.toList_none, List.nil_append,
          hcursor]
        exact ih cursor

/-- **C2** (confirmed). The cursor never retreats: on an accepted
(`status=ok`) record the new cursor is `max(cursor, matched window end)`;
on an `unmatched` or `bad_times` record the cursor is unchanged; and across
one audio file's chunk sequence the matched word-index spans of successive
accepted records are non-decreasing in start position. -/
theorem claim_C2_cursor_monotone (srcAudio : List Char) (words : List Word)
    (P : AlignParams) :
    (∀ cursor chunk,
      ((processChunk srcAudio words P cursor chunk).1.status = AStatus.ok →
        ∃ m, (processChunk srcAudio words P cursor chunk).2.1 = some m ∧
          (processChunk srcAudio words P cursor chunk).2.2 =
            max cursor m.end_i) ∧
      ((processChunk srcAudio words P cursor chunk).1.status ≠ AStatus.ok →
        (processChunk srcAudio words P cursor chunk).2.2 = cursor)) ∧
    (∀ chunks cursor,
      List.Chain' (fun a b => a.start_i ≤ b.start_i)
        (okSpans (alignChunks srcAudio words P cursor chunks).1) ∧
      cursor ≤ (alignChunks srcAudio words P cursor chunks).2) := by
  constructor
  · intro cursor chunk
    have h := processChunk_cursor srcAudio words P cursor chunk
    exact ⟨fun hok => by
      obtain ⟨m, h1, _, h3⟩ := h.1 hok
      exact ⟨m, h1, h3⟩, h.2⟩
  · intro chunks cursor
    have h := alignChunks_okSpans srcAudio words P chunks cursor
    exact ⟨h.2.1, h.2.2⟩

/-- Witness for C2 at a concrete input: two chunks matched in order. -/
theorem claim_C2_cursor_monotone_witness :
    List.Chain' (fun a b => a.start_i ≤ b.start_i)
      (okSpans (alignChunks [] [⟨['a'], 0, 1, ['a']⟩, ⟨['b'], 2, 3, ['b']⟩]
        ⟨8/10, 1/10, 4, 2000⟩ 0 [['a'], ['b']]).1) ∧
    0 ≤ (alignChunks [] [⟨['a'], 0, 1, ['a']⟩, ⟨['b'], 2, 3, ['b']⟩]
      ⟨8/10, 1/10, 4, 2000⟩ 0 [['a'], ['b']]).2 :=
  (claim_C2_cursor_monotone [] [⟨['a'], 0, 1, ['a']⟩, ⟨['b'], 2, 3, ['b']⟩]
    ⟨8/10, 1/10, 4, 2000⟩).2 [['a'], ['b']] 0

theorem processChunk_ok_fields (srcAudio : List Char) (words : List Word)
    (P : AlignParams) (cursor : Nat) (chunk : List Char)
    (hok : (processChunk srcAudio words P cursor chunk).1.status =
      AStatus.ok) :
    ∃ s t q,
      (processChunk srcAudio words P cursor chunk).1.start? =
        some (roundTo s 3) ∧
      (processChunk srcAudio words P cursor chunk).1.stop? =
        some (roundTo t 3) ∧
      (processChunk srcAudio words P cursor chunk).1.sim? =
        some (roundTo q 4) ∧
      0 ≤ s ∧ s < t ∧ P.minSim ≤ q := by
  match hm : bestMatchSequential words (tokenize chunk) cursor P.maxExtra
    P.maxCandidates with
  | none =>
    rw [processChunk_eq_of_none hm] at hok
    exact absurd hok (by simp)
  | some m =>
    by_cases hlow : m.sim < P.minSim
    · rw [processChunk_eq_of_low hm hlow] at hok
      exact absurd hok (by simp)
    · by_cases hbad : clamp ((words.getD (m.end_i - 1) default).stop +
          P.padSeconds) 0 (10 ^ 9) ≤
          clamp ((words.getD m.start_i default).start - P.padSeconds)
            0 (10 ^ 9)
      · rw [processChunk_eq_of_bad hm (not_lt.mp hlow) hbad] at hok
        exact absurd hok (by simp)
      · refine ⟨clamp ((words.getD m.start_i default).start - P.padSeconds)
            0 (10 ^ 9),
          clamp ((words.getD (m.end_i - 1) default).stop + P.padSeconds)
            0 (10 ^ 9),
          m.sim, ?_, ?_, ?_, ?_, ?_, not_lt.mp hlow⟩
        · rw [processChunk_eq_of_ok hm (not_lt.mp hlow) (not_le.mp hbad)]
        · rw [processChunk_eq_of_ok hm (not_lt.mp hlow) (not_le.mp hbad)]
        · rw [processChunk_eq_of_ok hm (not_lt.mp hlow) (not_le.mp hbad)]
        · exact le_max_left 0 _
        · exact not_le.mp hbad

theorem alignChunks_mem_processChunk (srcAudio : List Char)
    (words : List Word) (P : AlignParams) :
    ∀ (chunks : List (List Char)) (cursor : Nat) (e : ARec × Option AMatch),
      e ∈ (alignChunks srcAudio words P cursor chunks).1 →
      ∃ cur c, e = ((processChunk srcAudio words P cur c).1,
        (processChunk srcAudio words P cur c).2.1) := by
  intro chunks
  induction chunks with
  | nil =>
    intro cursor e he
    simp [alignChunks] at he
  | cons chunk rest ih =>
    intro cursor e he
    by_cases hempty : pyStrip chunk = []
    · rw [show alignChunks srcAudio words P cursor (chunk :: rest) =
        alignChunks srcAudio words P cursor rest by
          simp [alignChunks, if_pos hempty]] at he
      exact ih cursor e he
    · simp only [alignChunks, if_neg hempty] at he
      rcases List.mem_cons.mp he with rfl | he
      · exact ⟨cursor, pyStrip chunk, rfl⟩
      · exact ih _ e he

/-- **C1** (corrected). Every `status=ok` record has non-null `start`,
`end` and `sim` fields, and these are the 3-decimal (resp. 4-decimal)
roundings of pre-rounding values `s < t` with `0 ≤ s` and of a similarity
`q ≥ min_sim`; consequently `0 ≤ start ≤ end`.  (Strict `start < end` and
`sim ≥ min_sim` for the *recorded* values can fail by a rounding quantum —
see the counterexample.) -/
theorem claim_C1_ok_record_invariant (srcAudio : List Char)
    (words : List Word) (P : AlignParams) (cursor : Nat)
    (chunks : List (List Char)) :
    ∀ e ∈ (alignChunks srcAudio words P cursor chunks).1,
      e.1.status = AStatus.ok →
      ∃ s t q,
        e.1.start? = some (roundTo s 3) ∧ e.1.stop? = some (roundTo t 3) ∧
        e.1.sim? = some (roundTo q 4) ∧
        0 ≤ s ∧ s < t ∧ P.minSim ≤ q ∧
        0 ≤ roundTo s 3 ∧ roundTo s 3 ≤ roundTo t 3 := by
  intro e he hok
  obtain ⟨cur, c, rfl⟩ := alignChunks_mem_processChunk srcAudio words P
    chunks cursor e he
  obtain ⟨s, t, q, h1, h2, h3, h4, h5, h6⟩ :=
    processChunk_ok_fields srcAudio words P cur c hok
  exact ⟨s, t, q, h1, h2, h3, h4, h5, h6,
    roundTo_nonneg h4 3, roundTo_mono (le_of_lt h5) 3⟩

set_option maxRecDepth 1000000 in
/-- Witness for C1 at the two-word scenario input. -/
theorem claim_C1_ok_record_invariant_witness :
    ∃ s t q,
      (some (0 : ℚ) = some (roundTo s 3)) ∧
      (some (1 : ℚ) = some (roundTo t 3)) ∧
      (some (1 : ℚ) = some (roundTo q 4)) ∧
      0 ≤ s ∧ s < t ∧ (8 : ℚ)/10 ≤ q ∧
      0 ≤ roundTo s 3 ∧ roundTo s 3 ≤ roundTo t 3 := by
  have hmem : ((⟨[], some 0, some 1, "привет мир".toList, some 1,
      AStatus.ok⟩ : ARec), some (⟨0, 2, 1⟩ : AMatch)) ∈
      (alignChunks [] [⟨"привет".toList, 0, 2/5, "привет".toList⟩,
        ⟨"мир".toList, 1/2, 9/10, "мир".toList⟩] ⟨8/10, 1/10, 4, 2000⟩ 0
        ["привет мир".toList]).1 := by
    with_unfolding_all decide
  have happ := claim_C1_ok_record_invariant []
    [⟨"привет".toList, 0, 2/5, "привет".toList⟩,
      ⟨"мир".toList, 1/2, 9/10, "мир".toList⟩] ⟨8/10, 1/10, 4, 2000⟩ 0
    ["привет мир".toList]
    (⟨[], some 0, some 1, "привет мир".toList, some 1, AStatus.ok⟩,
      some ⟨0, 2, 1⟩) hmem rfl
  exact happ

set_option maxRecDepth 1000000 in
/-- Counterexample to C1 as stated: with `pad_seconds = 0` and a word
spanning `[0.1001, 0.1003]`, the record is accepted with `status=ok`, but
the emitted 3-decimal-rounded `start` and `end` are both `0.1` — the
claimed strict `start < end` fails on the emitted fields. -/
theorem claim_C1_counterexample :
    (alignChunks [] [⟨['a'], 1001/10000, 1003/10000, ['a']⟩]
        ⟨8/10, 0, 4, 2000⟩ 0 [['a']]).1 =
      [(⟨[], some (1/10), some (1/10), ['a'], some 1, AStatus.ok⟩,
        some ⟨0, 1, 1⟩)] := by
  with_unfolding_all decide

set_option maxRecDepth 1000000 in
/-- **C4** (corrected). Acceptance happens exactly when the best match
reaches `min_sim`; the emitted `start`/`end` are the first matched word's
start minus `pad_seconds` and the last matched word's end plus
`pad_seconds`, but clamped to `[0, 1e9]` (not `[0, +inf)`) and then rounded
to 3 decimals (similarity to 4); `end ≤ start` after padding gives
`bad_times`; no candidate reaching `min_sim` gives `unmatched` with null
times and the best observed similarity (un-rounded).  The
`привет/мир` scenario holds exactly as claimed. -/
theorem claim_C4_acceptance_and_padding :
    (∀ (srcAudio : List Char) (words : List Word) (P : AlignParams)
        (cursor : Nat) (chunk : List Char) (m : AMatch),
      bestMatchSequential words (tokenize chunk) cursor P.maxExtra
        P.maxCandidates = some m →
      P.minSim ≤ m.sim →
      clamp ((words.getD m.start_i default).start - P.padSeconds) 0 (10 ^ 9) <
        clamp ((words.getD (m.end_i - 1) default).stop + P.padSeconds)
          0 (10 ^ 9) →
      (processChunk srcAudio words P cursor chunk).1 =
        ⟨srcAudio,
          some (roundTo (clamp ((words.getD m.start_i default).start -
            P.padSeconds) 0 (10 ^ 9)) 3),
          some (roundTo (clamp ((words.getD (m.end_i - 1) default).stop +
            P.padSeconds) 0 (10 ^ 9)) 3),
          chunk, some (roundTo m.sim 4), AStatus.ok⟩) ∧
    (∀ (srcAudio : List Char) (words : List Word) (P : AlignParams)
        (cursor : Nat) (chunk : List Char) (m : AMatch),
      bestMatchSequential words (tokenize chunk) cursor P.maxExtra
        P.maxCandidates = some m →
      P.minSim ≤ m.sim →
      clamp ((words.getD (m.end_i - 1) default).stop + P.padSeconds)
          0 (10 ^ 9) ≤
        clamp ((words.getD m.start_i default).start - P.padSeconds)
          0 (10 ^ 9) →
      (processChunk srcAudio words P cursor chunk).1 =
        ⟨srcAudio, none, none, chunk, some m.sim, AStatus.bad_times⟩) ∧
    (∀ (srcAudio : List Char) (words : List Word) (P : AlignParams)
        (cursor : Nat) (chunk : List Char) (m : AMatch),
      bestMatchSequential words (tokenize chunk) cursor P.maxExtra
        P.maxCandidates = some m →
      m.sim < P.minSim →
      (processChunk srcAudio words P cursor chunk).1 =
        ⟨srcAudio, none, none, chunk, some m.sim, AStatus.unmatched⟩) ∧
    (∀ (srcAudio : List Char) (words : List Word) (P : AlignParams)
        (cursor : Nat) (chunk : List Char),
      bestMatchSequential words (tokenize chunk) cursor P.maxExtra
        P.maxCandidates = none →
      (processChunk srcAudio words P cursor chunk).1 =
        ⟨srcAudio, none, none, chunk, none, AStatus.unmatched⟩) ∧
    processChunk [] [⟨"привет".toList, 0, 2/5, "привет".toList⟩,
        ⟨"мир".toList, 1/2, 9/10, "мир".toList⟩] ⟨8/10, 1/10, 4, 2000⟩ 0
        ("привет мир".toList) =
      (⟨[], some 0, some 1, "привет мир".toList, some 1, AStatus.ok⟩,
        some ⟨0, 2, 1⟩, 2) := by
  refine ⟨?_, ?_, ?_, ?_, ?_⟩
  · intro srcAudio words P cursor chunk m hm hge hok
    rw [processChunk_eq_of_ok hm hge hok]
  · intro srcAudio words P cursor chunk m hm hge hbad
    rw [processChunk_eq_of_bad hm hge hbad]
  · intro srcAudio words P cursor chunk m hm hlow
    rw [processChunk_eq_of_low hm hlow]
  · intro srcAudio words P cursor chunk hm
    rw [processChunk_eq_of_none hm]
  · with_unfolding_all decide

set_option maxRecDepth 1000000 in
/-- Witness for C4: the `none` branch applied at a concrete input (a chunk
whose first token does not occur and whose window similarity is below
threshold would be `unmatched`; here the word stream is already exhausted). -/
theorem claim_C4_acceptance_and_padding_witness :
    bestMatchSequential [] (tokenize ['a']) 0 4 2000 = none ∧
    (processChunk [] [] ⟨8/10, 1/10, 4, 2000⟩ 0 ['a']).1 =
      ⟨[], none, none, ['a'], none, AStatus.unmatched⟩ := by
  have hm : bestMatchSequential [] (tokenize ['a']) 0 4 2000 = none := by
    with_unfolding_all decide
  exact ⟨hm, (claim_C4_acceptance_and_padding).2.2.2.1 [] [] ⟨8/10, 1/10, 4, 2000⟩
    0 ['a'] hm⟩

set_option maxRecDepth 1000000 in
/-- Counterexample to C4 as stated: the recorded `start` is not
`first_word.start - pad_seconds` clamped to `[0, +inf)` — it is that value
rounded to 3 decimals.  With `word.start = 0.2346` and `pad = 0.1`, the
claim predicts `start = 0.1346`, but the code emits `0.135`. -/
theorem claim_C4_counterexample :
    (processChunk [] [⟨['a'], 2346/10000, 1, ['a']⟩] ⟨8/10, 1/10, 4, 2000⟩
        0 ['a']).1.status = AStatus.ok ∧
    (processChunk [] [⟨['a'], 2346/10000, 1, ['a']⟩] ⟨8/10, 1/10, 4, 2000⟩
        0 ['a']).1.start? = some (27/200) ∧
    (27/200 : ℚ) ≠ max 0 ((2346 : ℚ)/10000 - 1/10) := by
  with_unfolding_all decide

/-! ## The Quality Heuristics Engine (`dataset_quality_report.py`)

Per-row textual/duplication/acoustic checks and the duplicate-text pass.
The filesystem (`get_audio_info`) is an oracle `List Char → AudioInfo`;
the diagnostic `details` strings (printf-style float formatting) are not
modelled.
-/

/-- A character kept by `normalize_text`'s `[^a-zа-яё0-9\s]` deletion
(applied after lowercasing, hence the lowercase-only ranges). -/
def isKeepChar (c : Char) : Bool :=
  ('a' ≤ c && c ≤ 'z') || ('а' ≤ c && c ≤ 'я') || c = 'ё' ||
  ('0' ≤ c && c ≤ '9') || isPySpace c

/-- `normalize_text` of both validators: lowercase, strip punctuation,
collapse whitespace, strip. -/
def normalizeText (text : List Char) : List Char :=
  let t1 := text.map pyLower
  let t2 := t1.map (fun c => if isKeepChar c then c else ' ')
  pyStrip (collapseWs t2)

/-- `CYRILLIC_RE = [А-Яа-яЁё]` (`А`–`я` is the contiguous block
U+0410–U+044F). -/
def isCyrChar (c : Char) : Bool :=
  ('А' ≤ c && c ≤ 'я') || c = 'Ё' || c = 'ё'

/-- `LATIN_RE = [A-Za-z]`. -/
def isLatChar (c : Char) : Bool :=
  ('A' ≤ c && c ≤ 'Z') || ('a' ≤ c && c ≤ 'z')

/-- `NON_PRINTABLE_RE = [\x00-\x08\x0B\x0C\x0E-\x1F]`. -/
def isNonPrintable (c : Char) : Bool :=
  c.toNat ≤ 0x08 || c.toNat = 0x0B || c.toNat = 0x0C ||
  (0x0E ≤ c.toNat && c.toNat ≤ 0x1F)

/-- Whitespace-splitting of `str.split()` (drops empty pieces); `cur` is
the reversed word being accumulated. -/
def splitWsAux (cur : List Char) : List Char → List (List Char)
  | [] => if cur = [] then [] else [cur.reverse]
  | c :: rest =>
    if isPySpace c then
      (if cur = [] then [] else [cur.reverse]) ++ splitWsAux [] rest
    else splitWsAux (c :: cur) rest

def splitWs (l : List Char) : List (List Char) := splitWsAux [] l

/-- `_token_repetition_score`: share of the most frequent token among all
tokens, for normalised texts with at least 6 tokens. -/
def tokenRepetitionScore (text : List Char) : ℚ :=
  let norm := normalizeText text
  if norm = [] then 0
  else
    let tokens := splitWs norm
    if tokens.length < 6 then 0
    else
      let most := (tokens.map (fun t => tokens.count t)).foldr max 0
      (most : ℚ) / (max 1 tokens.length : ℚ)

/-- One metadata row of the quality report (`Row(row_num, wav, text)`). -/
structure QRow where
  row_num : Nat
  wav : List Char
  text : List Char
deriving DecidableEq

/-- `AudioInfo` as returned by `get_audio_info` (oracle boundary). -/
structure AudioInfo where
  duration_s : Option ℚ
  samplerate : Option Nat
  channels : Option Nat
  subtype : Option (List Char)
  error : Option (List Char)

/-- One Suspect finding (the formatted `details` string is not modelled). -/
structure Suspect where
  row : Nat
  wav : List Char
  issue : List Char
  text : List Char
deriving DecidableEq

/-- The thresholds of `dataset_quality_report.main`. -/
structure QCParams where
  minTextLen : Nat
  maxTextLen : Nat
  minCyrRatio : ℚ
  minDuration : ℚ
  maxDuration : ℚ
  latinSuspectRatio : ℚ
  repetitionSuspect : ℚ

/-- The loop state: the `normalized_text_to_first` index (key, first row),
`duplicate_rows`, `suspects`, `durations`, `text_lens`. -/
structure QCState where
  seen : List (List Char × Nat)
  duplicateRows : List Nat
  suspects : List Suspect
  durations : List ℚ
  textLens : List Nat

/-- The body of the first per-row loop of `dataset_quality_report.main`
(lines 300–386). -/
def qcRowStep (P : QCParams) (audio : List Char → AudioInfo)
    (st : QCState) (r : QRow) : QCState :=
  if r.wav = [] ∨ r.text = [] then
    { st with suspects := st.suspects ++
        [⟨r.row_num, r.wav, "empty_wav_or_text".toList, r.text⟩] }
  else
    let s := st.suspects ++
      (if r.text.any isNonPrintable then
        [⟨r.row_num, r.wav, "non_printable".toList, r.text⟩] else []) ++
      (if r.text.length < P.minTextLen then
        [⟨r.row_num, r.wav, "too_short_text".toList, r.text⟩] else []) ++
      (if P.maxTextLen < r.text.length then
        [⟨r.row_num, r.wav, "too_long_text".toList, r.text⟩] else [])
    let cyr := r.text.countP isCyrChar
    let lat := r.text.countP isLatChar
    let letters := cyr + lat
    let cyrRatio : ℚ := if letters ≠ 0 then (cyr : ℚ) / letters else 0
    let latRatio : ℚ := if letters ≠ 0 then (lat : ℚ) / letters else 0
    let s := s ++
      (if letters ≠ 0 ∧ cyrRatio < P.minCyrRatio then
        [⟨r.row_num, r.wav, "low_cyrillic_ratio".toList, r.text⟩] else []) ++
      (if letters ≠ 0 ∧ (0 < cyr ∧ 0 < lat) ∧
          P.latinSuspectRatio ≤ latRatio then
        [⟨r.row_num, r.wav, "code_switch".toList, r.text⟩] else []) ++
      (if P.repetitionSuspect ≤ tokenRepetitionScore r.text then
        [⟨r.row_num, r.wav, "high_token_repetition".toList, r.text⟩] else [])
    let norm := normalizeText r.text
    let seen' :=
      if norm ≠ [] ∧ ¬ (∃ p ∈ st.seen, p.1 = norm) then
        st.seen ++ [(norm, r.row_num)]
      else st.seen
    let dups' :=
      if norm ≠ [] ∧ (∃ p ∈ st.seen, p.1 = norm) then
        st.duplicateRows ++ [r.row_num]
      else st.duplicateRows
    let ainfo := audio r.wav
    match ainfo.error with
    | some e =>
      { seen := seen', duplicateRows := dups',
        suspects := s ++ [⟨r.row_num, r.wav, e, r.text⟩],
        durations := st.durations, textLens := st.textLens }
    | none =>
      let s := s ++
        (match ainfo.duration_s with
          | some d =>
            (if d < P.minDuration then
              [⟨r.row_num, r.wav, "too_short_audio".toList, r.text⟩]
            else []) ++
            (if P.maxDuration < d then
              [⟨r.row_num, r.wav, "too_long_audio".toList, r.text⟩]
            else [])
          | none => [])
      { seen := seen', duplicateRows := dups', suspects := s,
        durations :=
          (match ainfo.duration_s with
            | some d => st.durations ++ [d]
            | none => st.durations),
        textLens := st.textLens ++ [r.text.length] }

/-- The whole suspect computation of `dataset_quality_report.main`: the
per-row loop followed by the `duplicate_text` marking pass. -/
def qcRun (P : QCParams) (audio : List Char → AudioInfo) (rows : List QRow) :
    QCState :=
  let st := rows.foldl (qcRowStep P audio) ⟨[], [], [], [], []⟩
  { st with suspects := st.suspects ++
      st.duplicateRows.map (fun n =>
        ⟨n, (rows.getD (n - 1) ⟨0, [], []⟩).wav, "duplicate_text".toList,
          (rows.getD (n - 1) ⟨0, [], []⟩).text⟩) }

/-- Default row for `getD` lookups. -/
def qrDefault : QRow := ⟨0, [], []⟩

/-- A row that participates in duplicate detection: non-empty `wav` and
`text` fields (the structural guard) and a non-empty normalised text. -/
def qcValid (r : QRow) : Prop :=
  r.wav ≠ [] ∧ r.text ≠ [] ∧ normalizeText r.text ≠ []

instance (r : QRow) : Decidable (qcValid r) := by
  rw [qcValid]
  infer_instance

theorem qcRowStep_seen (P : QCParams) (audio : List Char → AudioInfo)
    (st : QCState) (r : QRow) :
    (qcRowStep P audio st r).seen =
      if qcValid r ∧ ¬ (∃ p ∈ st.seen, p.1 = normalizeText r.text)
      then st.seen ++ [(normalizeText r.text, r.row_num)] else st.seen := by
  rw [qcRowStep]
  by_cases h0 : r.wav = [] ∨ r.text = []
  · rw [if_pos h0]
    have hnv : ¬ qcValid r := by
      rw [qcValid]
      rcases h0 with h0 | h0 <;> simp [h0]
    rw [if_neg (by tauto)]
  · rw [if_neg h0]
    push_neg at h0
    by_cases hn : normalizeText r.text ≠ [] ∧
        ¬ (∃ p ∈ st.seen, p.1 = normalizeText r.text)
    · have hv : qcValid r ∧ ¬ (∃ p ∈ st.seen, p.1 = normalizeText r.text) :=
        ⟨⟨h0.1, h0.2, hn.1⟩, hn.2⟩
      cases herr : (audio r.wav).error <;>
        (simp only [herr]; rw [if_pos hn, if_pos hv])
    · have hv : ¬ (qcValid r ∧
          ¬ (∃ p ∈ st.seen, p.1 = normalizeText r.text)) :=
        fun hc => hn ⟨hc.1.2.2, hc.2⟩
      cases herr : (audio r.wav).error <;>
        (simp only [herr]; rw [if_neg hn, if_neg hv])

theorem qcRowStep_dups (P : QCParams) (audio : List Char → AudioInfo)
    (st : QCState) (r : QRow) :
    (qcRowStep P audio st r).duplicateRows =
      if qcValid r ∧ (∃ p ∈ st.seen, p.1 = normalizeText r.text)
      then st.duplicateRows ++ [r.row_num] else st.duplicateRows := by
  rw [qcRowStep]
  by_cases h0 : r.wav = [] ∨ r.text = []
  · rw [if_pos h0]
    have hnv : ¬ qcValid r := by
      rw [qcValid]
      rcases h0 with h0 | h0 <;> simp [h0]
    rw [if_neg (by tauto)]
  · rw [if_neg h0]
    push_neg at h0
    by_cases hn : normalizeText r.text ≠ [] ∧
        (∃ p ∈ st.seen, p.1 = normalizeText r.text)
    · have hv : qcValid r ∧ (∃ p ∈ st.seen, p.1 = normalizeText r.text) :=
        ⟨⟨h0.1, h0.2, hn.1⟩, hn.2⟩
      cases herr : (audio r.wav).error <;>
        (simp only [herr]; rw [if_pos hn, if_pos hv])
    · have hv : ¬ (qcValid r ∧
          (∃ p ∈ st.seen, p.1 = normalizeText r.text)) :=
        fun hc => hn ⟨hc.1.2.2, hc.2⟩
      cases herr : (audio r.wav).error <;>
        (simp only [herr]; rw [if_neg hn, if_neg hv])

theorem seen_step_mem (P : QCParams) (audio : List Char → AudioInfo)
    (st : QCState) (r : QRow) (n : List Char) :
    (∃ p ∈ (qcRowStep P audio st r).seen, p.1 = n) ↔
      (∃ p ∈ st.seen, p.1 = n) ∨ (qcValid r ∧ normalizeText r.text = n) := by
  rw [qcRowStep_seen]
  by_cases h : qcValid r ∧ ¬ (∃ p ∈ st.seen, p.1 = normalizeText r.text)
  · rw [if_pos h]
    constructor
    · intro ⟨p, hp, hpn⟩
      rcases List.mem_append.mp hp with hp | hp
      · exact Or.inl ⟨p, hp, hpn⟩
      · rw [List.mem_singleton] at hp
        subst hp
        exact Or.inr ⟨h.1, hpn⟩
    · intro hor
      rcases hor with ⟨p, hp, hpn⟩ | ⟨_, hn⟩
      · exact ⟨p, List.mem_append.mpr (Or.inl hp), hpn⟩
      · exact ⟨(normalizeText r.text, r.row_num),
          List.mem_append.mpr (Or.inr (by simp)), hn⟩
  · rw [if_neg h]
    constructor
    · exact fun hex => Or.inl hex
    · intro hor
      rcases hor with hex | ⟨hv, hn⟩
      · exact hex
      · by_cases hseen : ∃ p ∈ st.seen, p.1 = normalizeText r.text
        · obtain ⟨p, hp, hpn⟩ := hseen
          exact ⟨p, hp, by rw [hpn, hn]⟩
        · exact absurd ⟨hv, hseen⟩ h

/-- The default thresholds of `dataset_quality_report.main` (argparse
defaults: 3, 400, 0.6, 0.2, 15.5, 0.1, 0.5). -/
def qcDefaults : QCParams := ⟨3, 400, 3/5, 1/5, 31/2, 1/10, 1/2⟩

/-- An audio oracle answering a clean one-second PCM_16 mono file for
every path. -/
def qcAudioOK : List Char → AudioInfo :=
  fun _ => ⟨some 1, some 48000, some 1, some ("PCM_16".toList), none⟩

theorem seen_foldl_mem (P : QCParams) (audio : List Char → AudioInfo) :
    ∀ (l : List QRow) (st : QCState) (n : List Char),
      (∃ p ∈ (l.foldl (qcRowStep P audio) st).seen, p.1 = n) ↔
        (∃ p ∈ st.seen, p.1 = n) ∨
          ∃ r ∈ l, qcValid r ∧ normalizeText r.text = n := by
  intro l
  induction l with
  | nil =>
    intro st n
    simp
  | cons r l ih =>
    intro st n
    rw [List.foldl_cons, ih, seen_step_mem, List.exists_mem_cons_iff,
      or_assoc]

theorem dups_foldl_shape (P : QCParams) (audio : List Char → AudioInfo) :
    ∀ (l : List QRow) (st : QCState),
      ∃ extra, (l.foldl (qcRowStep P audio) st).duplicateRows =
          st.duplicateRows ++ extra ∧
        ∀ n ∈ extra, ∃ r ∈ l, qcValid r ∧ r.row_num = n := by
  intro l
  induction l with
  | nil =>
    intro st
    exact ⟨[], by simp, by simp⟩
  | cons r l ih =>
    intro st
    obtain ⟨extra, heq, hmem⟩ := ih (qcRowStep P audio st r)
    by_cases h : qcValid r ∧ (∃ p ∈ st.seen, p.1 = normalizeText r.text)
    · refine ⟨[r.row_num] ++ extra, ?_, ?_⟩
      · rw [List.foldl_cons, heq, qcRowStep_dups, if_pos h,
          List.append_assoc]
      · intro n hn
        rcases List.mem_append.mp hn with hn | hn
        · rw [List.mem_singleton] at hn
          exact ⟨r, List.mem_cons_self r l, h.1, hn.symm⟩
        · obtain ⟨r', hr', hv', he'⟩ := hmem n hn
          exact ⟨r', List.mem_cons_of_mem r hr', hv', he'⟩
    · refine ⟨extra, ?_, ?_⟩
      · rw [List.foldl_cons, heq, qcRowStep_dups, if_neg h]
      · intro n hn
        obtain ⟨r', hr', hv', he'⟩ := hmem n hn
        exact ⟨r', List.mem_cons_of_mem r hr', hv', he'⟩

theorem qcRun_dups (P : QCParams) (audio : List Char → AudioInfo)
    (rows : List QRow) :
    (qcRun P audio rows).duplicateRows =
      (rows.foldl (qcRowStep P audio) ⟨[], [], [], [], []⟩).duplicateRows :=
  rfl

/-- C6: in `dataset_quality_report.main`, a row whose row number is fresh
is listed in `duplicate_rows` (and hence reported as `duplicate_text`)
exactly when it passes the structural guard, its normalised text is
non-empty, and some earlier row that also passes those guards has the same
normalised text; the first occurrence is never listed. -/
theorem claim_C6_duplicate_text (P : QCParams) (audio : List Char → AudioInfo)
    (pre post : List QRow) (r : QRow)
    (hfresh : ∀ r' ∈ pre ++ post, r'.row_num ≠ r.row_num) :
    r.row_num ∈ (qcRun P audio (pre ++ r :: post)).duplicateRows ↔
      qcValid r ∧ ∃ r' ∈ pre, qcValid r' ∧
        normalizeText r'.text = normalizeText r.text := by
  rw [qcRun_dups, List.foldl_append, List.foldl_cons]
  obtain ⟨e1, he1, hm1⟩ := dups_foldl_shape P audio pre ⟨[], [], [], [], []⟩
  obtain ⟨e2, he2, hm2⟩ := dups_foldl_shape P audio post
    (qcRowStep P audio (pre.foldl (qcRowStep P audio) ⟨[], [], [], [], []⟩) r)
  rw [he2, qcRowStep_dups, he1]
  simp only [List.nil_append]
  have hseen := seen_foldl_mem P audio pre ⟨[], [], [], [], []⟩
    (normalizeText r.text)
  have hnot1 : r.row_num ∉ e1 := by
    intro hc
    obtain ⟨r', hr', _, he⟩ := hm1 _ hc
    exact hfresh r' (List.mem_append.mpr (Or.inl hr')) he
  have hnot2 : r.row_num ∉ e2 := by
    intro hc
    obtain ⟨r', hr', _, he⟩ := hm2 _ hc
    exact hfresh r' (List.mem_append.mpr (Or.inr hr')) he
  by_cases hc : qcValid r ∧
      ∃ p ∈ (pre.foldl (qcRowStep P audio) ⟨[], [], [], [], []⟩).seen,
        p.1 = normalizeText r.text
  · rw [if_pos hc]
    constructor
    · intro _
      refine ⟨hc.1, ?_⟩
      rcases hseen.mp hc.2 with ⟨p, hp, _⟩ | h
      · simp at hp
      · exact h
    · intro _
      exact List.mem_append.mpr
        (Or.inl (List.mem_append.mpr (Or.inr (List.mem_singleton.mpr rfl))))
  · rw [if_neg hc]
    constructor
    · intro hmem'
      rcases List.mem_append.mp hmem' with h | h
      · exact absurd h hnot1
      · exact absurd h hnot2
    · rintro ⟨hv, r', hr', hv', he'⟩
      exact absurd ⟨hv, hseen.mpr (Or.inr ⟨r', hr', hv', he'⟩)⟩ hc

set_option maxRecDepth 1000000 in
/-- C6 witness: the attested scenario. Rows "привет", "Привет!", "привет"
(all clean audio): rows 2 and 3 are listed in `duplicate_rows` and receive
`duplicate_text` suspects, row 1 does not; the general theorem applied to
row 2 of this corpus agrees. -/
theorem claim_C6_duplicate_text_witness :
    (∀ r' ∈ ([⟨1, "w1".toList, "привет".toList⟩] : List QRow) ++
        [⟨3, "w3".toList, "привет".toList⟩],
      r'.row_num ≠ (⟨2, "w2".toList, "Привет!".toList⟩ : QRow).row_num) ∧
    ((⟨2, "w2".toList, "Привет!".toList⟩ : QRow).row_num ∈
        (qcRun qcDefaults qcAudioOK
          ([⟨1, "w1".toList, "привет".toList⟩] ++
            ⟨2, "w2".toList, "Привет!".toList⟩ ::
              [⟨3, "w3".toList, "привет".toList⟩])).duplicateRows ↔
      qcValid ⟨2, "w2".toList, "Привет!".toList⟩ ∧
        ∃ r' ∈ ([⟨1, "w1".toList, "привет".toList⟩] : List QRow),
          qcValid r' ∧
            normalizeText r'.text = normalizeText "Привет!".toList) ∧
    (qcRun qcDefaults qcAudioOK
        [⟨1, "w1".toList, "привет".toList⟩,
          ⟨2, "w2".toList, "Привет!".toList⟩,
          ⟨3, "w3".toList, "привет".toList⟩]).duplicateRows = [2, 3] ∧
    ((qcRun qcDefaults qcAudioOK
        [⟨1, "w1".toList, "привет".toList⟩,
          ⟨2, "w2".toList, "Привет!".toList⟩,
          ⟨3, "w3".toList, "привет".toList⟩]).suspects.filter
          (fun s => decide (s.issue = "duplicate_text".toList))).map
        (fun s => s.row) = [2, 3] :=
  ⟨by decide,
    claim_C6_duplicate_text qcDefaults qcAudioOK
      [⟨1, "w1".toList, "привет".toList⟩]
      [⟨3, "w3".toList, "привет".toList⟩]
      ⟨2, "w2".toList, "Привет!".toList⟩ (by decide),
    by with_unfolding_all decide,
    by with_unfolding_all decide⟩

set_option maxRecDepth 1000000 in
/-- C6 counterexample: rows whose texts "..." and "???" have equal (empty)
normalised texts are never listed as duplicates, so "duplicate exactly when
the normalised text equals an earlier row's" fails without the
non-emptiness proviso. -/
theorem claim_C6_counterexample :
    normalizeText "???".toList = normalizeText "...".toList ∧
    (qcRun qcDefaults qcAudioOK
        [⟨1, "w1".toList, "...".toList⟩,
          ⟨2, "w2".toList, "???".toList⟩]).duplicateRows = [] ∧
    (qcRun qcDefaults qcAudioOK
        [⟨1, "w1".toList, "...".toList⟩,
          ⟨2, "w2".toList, "???".toList⟩]).suspects.filter
        (fun s => decide (s.issue = "duplicate_text".toList)) = [] := by
  with_unfolding_all decide

/-- C7 (amended): once a row passes the structural guard and its audio
probes cleanly, every per-row check contributes its suspect independently:
the number of suspects added is the sum of one indicator per check, each
check's suspect is present whenever its own condition holds regardless of
the other checks, and the duplicate bookkeeping runs as well. (The guard
itself and an audio probe error do short-circuit; see the
counterexample.) -/
theorem claim_C7_per_row_checks (P : QCParams) (audio : List Char → AudioInfo)
    (st : QCState) (r : QRow) (d : ℚ)
    (hw : r.wav ≠ []) (ht : r.text ≠ [])
    (herr : (audio r.wav).error = none)
    (hd : (audio r.wav).duration_s = some d) :
    let cyr := r.text.countP isCyrChar
    let lat := r.text.countP isLatChar
    let letters := cyr + lat
    let cyrRatio : ℚ := if letters ≠ 0 then (cyr : ℚ) / letters else 0
    let latRatio : ℚ := if letters ≠ 0 then (lat : ℚ) / letters else 0
    ((qcRowStep P audio st r).suspects.length = st.suspects.length +
      ((if r.text.any isNonPrintable then 1 else 0) +
        (if r.text.length < P.minTextLen then 1 else 0) +
        (if P.maxTextLen < r.text.length then 1 else 0) +
        (if letters ≠ 0 ∧ cyrRatio < P.minCyrRatio then 1 else 0) +
        (if letters ≠ 0 ∧ (0 < cyr ∧ 0 < lat) ∧
            P.latinSuspectRatio ≤ latRatio then 1 else 0) +
        (if P.repetitionSuspect ≤ tokenRepetitionScore r.text then 1 else 0) +
        (if d < P.minDuration then 1 else 0) +
        (if P.maxDuration < d then 1 else 0))) ∧
    (r.text.any isNonPrintable →
      (⟨r.row_num, r.wav, "non_printable".toList, r.text⟩ : Suspect) ∈
        (qcRowStep P audio st r).suspects) ∧
    (r.text.length < P.minTextLen →
      (⟨r.row_num, r.wav, "too_short_text".toList, r.text⟩ : Suspect) ∈
        (qcRowStep P audio st r).suspects) ∧
    (P.maxTextLen < r.text.length →
      (⟨r.row_num, r.wav, "too_long_text".toList, r.text⟩ : Suspect) ∈
        (qcRowStep P audio st r).suspects) ∧
    (letters ≠ 0 ∧ cyrRatio < P.minCyrRatio →
      (⟨r.row_num, r.wav, "low_cyrillic_ratio".toList, r.text⟩ : Suspect) ∈
        (qcRowStep P audio st r).suspects) ∧
    (letters ≠ 0 ∧ (0 < cyr ∧ 0 < lat) ∧ P.latinSuspectRatio ≤ latRatio →
      (⟨r.row_num, r.wav, "code_switch".toList, r.text⟩ : Suspect) ∈
        (qcRowStep P audio st r).suspects) ∧
    (P.repetitionSuspect ≤ tokenRepetitionScore r.text →
      (⟨r.row_num, r.wav, "high_token_repetition".toList, r.text⟩ : Suspect) ∈
        (qcRowStep P audio st r).suspects) ∧
    (d < P.minDuration →
      (⟨r.row_num, r.wav, "too_short_audio".toList, r.text⟩ : Suspect) ∈
        (qcRowStep P audio st r).suspects) ∧
    (P.maxDuration < d →
      (⟨r.row_num, r.wav, "too_long_audio".toList, r.text⟩ : Suspect) ∈
        (qcRowStep P audio st r).suspects) ∧
    ((qcRowStep P audio st r).duplicateRows =
      if normalizeText r.text ≠ [] ∧
          (∃ p ∈ st.seen, p.1 = normalizeText r.text)
      then st.duplicateRows ++ [r.row_num] else st.duplicateRows) := by
  have h0 : ¬ (r.wav = [] ∨ r.text = []) := by
    intro hc
    rcases hc with hc | hc
    · exact hw hc
    · exact ht hc
  have hout : (qcRowStep P audio st r).suspects =
      st.suspects ++
        (if r.text.any isNonPrintable then
          [⟨r.row_num, r.wav, "non_printable".toList, r.text⟩] else []) ++
        (if r.text.length < P.minTextLen then
          [⟨r.row_num, r.wav, "too_short_text".toList, r.text⟩] else []) ++
        (if P.maxTextLen < r.text.length then
          [⟨r.row_num, r.wav, "too_long_text".toList, r.text⟩] else []) ++
        (if r.text.countP isCyrChar + r.text.countP isLatChar ≠ 0 ∧
            (if r.text.countP isCyrChar + r.text.countP isLatChar ≠ 0 then
              (r.text.countP isCyrChar : ℚ) /
                ((r.text.countP isCyrChar + r.text.countP isLatChar : Nat) : ℚ)
            else 0) < P.minCyrRatio then
          [⟨r.row_num, r.wav, "low_cyrillic_ratio".toList, r.text⟩] else []) ++
        (if r.text.countP isCyrChar + r.text.countP isLatChar ≠ 0 ∧
            (0 < r.text.countP isCyrChar ∧ 0 < r.text.countP isLatChar) ∧
            P.latinSuspectRatio ≤
              (if r.text.countP isCyrChar + r.text.countP isLatChar ≠ 0 then
                (r.text.countP isLatChar : ℚ) /
                  ((r.text.countP isCyrChar + r.text.countP isLatChar : Nat) : ℚ)
              else 0) then
          [⟨r.row_num, r.wav, "code_switch".toList, r.text⟩] else []) ++
        (if P.repetitionSuspect ≤ tokenRepetitionScore r.text then
          [⟨r.row_num, r.wav, "high_token_repetition".toList, r.text⟩]
        else []) ++
        ((if d < P.minDuration then
          [⟨r.row_num, r.wav, "too_short_audio".toList, r.text⟩] else []) ++
        (if P.maxDuration < d then
          [⟨r.row_num, r.wav, "too_long_audio".toList, r.text⟩] else [])) := by
    rw [qcRowStep, if_neg h0]
    simp only [herr, hd]
  have hdup : (qcRowStep P audio st r).duplicateRows =
      if normalizeText r.text ≠ [] ∧
          (∃ p ∈ st.seen, p.1 = normalizeText r.text)
      then st.duplicateRows ++ [r.row_num] else st.duplicateRows := by
    rw [qcRowStep_dups]
    refine if_congr ?_ rfl rfl
    rw [qcValid]
    exact ⟨fun h => ⟨h.1.2.2, h.2⟩, fun h => ⟨⟨hw, ht, h.1⟩, h.2⟩⟩
  refine ⟨?_, ?_, ?_, ?_, ?_, ?_, ?_, ?_, ?_, hdup⟩
  · rw [hout]
    simp only [List.length_append, apply_ite List.length,
      List.length_singleton, List.length_nil]
    omega
  all_goals
    intro hc
    rw [hout, if_pos hc]
    simp [List.mem_append]

/-- A clean concrete row for instantiating the per-row check theorem. -/
def qcRow7 : QRow := ⟨1, "w".toList, "привет, это тест".toList⟩

set_option maxRecDepth 1000000 in
/-- C7 witness: the per-row independence theorem instantiated on a clean
row with a clean one-second audio probe. -/
theorem claim_C7_per_row_checks_witness :
    (qcRow7.wav ≠ [] ∧ qcRow7.text ≠ [] ∧
      (qcAudioOK qcRow7.wav).error = none ∧
      (qcAudioOK qcRow7.wav).duration_s = some 1) ∧
    (let cyr := qcRow7.text.countP isCyrChar
     let lat := qcRow7.text.countP isLatChar
     let letters := cyr + lat
     let cyrRatio : ℚ := if letters ≠ 0 then (cyr : ℚ) / letters else 0
     let latRatio : ℚ := if letters ≠ 0 then (lat : ℚ) / letters else 0
     ((qcRowStep qcDefaults qcAudioOK ⟨[], [], [], [], []⟩ qcRow7).suspects.length =
        (⟨[], [], [], [], []⟩ : QCState).suspects.length +
        ((if qcRow7.text.any isNonPrintable then 1 else 0) +
          (if qcRow7.text.length < qcDefaults.minTextLen then 1 else 0) +
          (if qcDefaults.maxTextLen < qcRow7.text.length then 1 else 0) +
          (if letters ≠ 0 ∧ cyrRatio < qcDefaults.minCyrRatio then 1 else 0) +
          (if letters ≠ 0 ∧ (0 < cyr ∧ 0 < lat) ∧
              qcDefaults.latinSuspectRatio ≤ latRatio then 1 else 0) +
          (if qcDefaults.repetitionSuspect ≤ tokenRepetitionScore qcRow7.text
            then 1 else 0) +
          (if (1 : ℚ) < qcDefaults.minDuration then 1 else 0) +
          (if qcDefaults.maxDuration < (1 : ℚ) then 1 else 0))) ∧
      (qcRow7.text.any isNonPrintable →
        (⟨qcRow7.row_num, qcRow7.wav, "non_printable".toList, qcRow7.text⟩ : Suspect) ∈
          (qcRowStep qcDefaults qcAudioOK ⟨[], [], [], [], []⟩ qcRow7).suspects) ∧
      (qcRow7.text.length < qcDefaults.minTextLen →
        (⟨qcRow7.row_num, qcRow7.wav, "too_short_text".toList, qcRow7.text⟩ : Suspect) ∈
          (qcRowStep qcDefaults qcAudioOK ⟨[], [], [], [], []⟩ qcRow7).suspects) ∧
      (qcDefaults.maxTextLen < qcRow7.text.length →
        (⟨qcRow7.row_num, qcRow7.wav, "too_long_text".toList, qcRow7.text⟩ : Suspect) ∈
          (qcRowStep qcDefaults qcAudioOK ⟨[], [], [], [], []⟩ qcRow7).suspects) ∧
      (letters ≠ 0 ∧ cyrRatio < qcDefaults.minCyrRatio →
        (⟨qcRow7.row_num, qcRow7.wav, "low_cyrillic_ratio".toList, qcRow7.text⟩ : Suspect) ∈
          (qcRowStep qcDefaults qcAudioOK ⟨[], [], [], [], []⟩ qcRow7).suspects) ∧
      (letters ≠ 0 ∧ (0 < cyr ∧ 0 < lat) ∧
          qcDefaults.latinSuspectRatio ≤ latRatio →
        (⟨qcRow7.row_num, qcRow7.wav, "code_switch".toList, qcRow7.text⟩ : Suspect) ∈
          (qcRowStep qcDefaults qcAudioOK ⟨[], [], [], [], []⟩ qcRow7).suspects) ∧
      (qcDefaults.repetitionSuspect ≤ tokenRepetitionScore qcRow7.text →
        (⟨qcRow7.row_num, qcRow7.wav, "high_token_repetition".toList, qcRow7.text⟩ : Suspect) ∈
          (qcRowStep qcDefaults qcAudioOK ⟨[], [], [], [], []⟩ qcRow7).suspects) ∧
      ((1 : ℚ) < qcDefaults.minDuration →
        (⟨qcRow7.row_num, qcRow7.wav, "too_short_audio".toList, qcRow7.text⟩ : Suspect) ∈
          (qcRowStep qcDefaults qcAudioOK ⟨[], [], [], [], []⟩ qcRow7).suspects) ∧
      (qcDefaults.maxDuration < (1 : ℚ) →
        (⟨qcRow7.row_num, qcRow7.wav, "too_long_audio".toList, qcRow7.text⟩ : Suspect) ∈
          (qcRowStep qcDefaults qcAudioOK ⟨[], [], [], [], []⟩ qcRow7).suspects) ∧
      ((qcRowStep qcDefaults qcAudioOK ⟨[], [], [], [], []⟩ qcRow7).duplicateRows =
        if normalizeText qcRow7.text ≠ [] ∧
            (∃ p ∈ (⟨[], [], [], [], []⟩ : QCState).seen,
              p.1 = normalizeText qcRow7.text)
        then (⟨[], [], [], [], []⟩ : QCState).duplicateRows ++ [qcRow7.row_num]
        else (⟨[], [], [], [], []⟩ : QCState).duplicateRows)) :=
  ⟨⟨by decide, by decide, rfl, rfl⟩,
    claim_C7_per_row_checks qcDefaults qcAudioOK ⟨[], [], [], [], []⟩ qcRow7 1
      (by decide) (by decide) rfl rfl⟩

set_option maxRecDepth 1000000 in
/-- C7 counterexample: the structural guard and an audio probe error do
short-circuit the remaining checks. A row with an empty wav and a 500
character text gets only `empty_wav_or_text` (no `too_long_text` although
500 > 400), and a clean row whose audio probe errors gets only the error
suspect (no `too_long_audio` although its duration 100 > 15.5). -/
theorem claim_C7_counterexample :
    (400 < (List.replicate 500 'а').length ∧
      (qcRun qcDefaults qcAudioOK
        [⟨1, [], List.replicate 500 'а'⟩]).suspects =
          [⟨1, [], "empty_wav_or_text".toList, List.replicate 500 'а'⟩]) ∧
    ((31 : ℚ) / 2 < 100 ∧
      (qcRun qcDefaults
        (fun _ => ⟨some 100, none, none, none, some ("read_error".toList)⟩)
        [⟨1, "w".toList, "привет, это тест".toList⟩]).suspects =
          [⟨1, "w".toList, "read_error".toList, "привет, это тест".toList⟩]) := by
  with_unfolding_all decide

/-- `sf.info` result (oracle boundary of `check_audio_info`). -/
structure SfInfo where
  samplerate : Nat
  channels : Nat
  subtype : List Char
  frames : Nat

/-- One parsed metadata row of `validate_dataset_full.read_metadata`:
`(row_num, wav, text, row_issue)`. -/
structure VRow where
  row_num : Nat
  wav : List Char
  text : List Char
  rowIssue : List Char
deriving DecidableEq

/-- One issue tuple `(row, wav, text, issue)` of the full validator. -/
structure VIssue where
  row : Nat
  wav : List Char
  text : List Char
  issue : List Char
deriving DecidableEq

/-- The filesystem / soundfile / whisper environment of
`validate_dataset_full.main` (oracle boundary). -/
structure FullEnv where
  hasConfig : Bool
  hasMetadata : Bool
  hasWavsDir : Bool
  expectedSr : Option Nat
  wavFiles : List (List Char)
  sfInstalled : Bool
  probe : List Char → Option SfInfo
  wavExists : List Char → Bool
  whisperHyp : List Char → Option (List Char)

/-- The thresholds and flags of `validate_dataset_full.main`. -/
structure FullParams where
  minTextLen : Nat
  maxTextLen : Nat
  minCyrRatio : ℚ
  simThreshold : ℚ
  whisper : Bool
  requireWhisper : Bool

/-- `read_metadata`: empty rows, rows with fewer than two fields, and
ordinary rows (fields stripped). -/
def readMetadata (raw : List (List (List Char))) : List VRow :=
  raw.enum.map (fun p =>
    if p.2 = [] ∨ p.2.all (fun part => decide (pyStrip part = [])) then
      ⟨p.1 + 1, [], [], "empty_row".toList⟩
    else if p.2.length < 2 then
      ⟨p.1 + 1, pyStrip (p.2.getD 0 []), [], "missing_text".toList⟩
    else
      ⟨p.1 + 1, pyStrip (p.2.getD 0 []), pyStrip (p.2.getD 1 []), []⟩)

/-- `check_audio_info`: an error string or the list of audio issues. -/
def checkAudioInfo (E : FullEnv) (wav : List Char) :
    Sum (List Char) (List (List Char)) :=
  if E.sfInstalled = false then Sum.inl ("soundfile_not_installed".toList)
  else
    match E.probe wav with
    | none => Sum.inl ("invalid_audio".toList)
    | some info =>
      let duration : ℚ :=
        if info.samplerate ≠ 0 then (info.frames : ℚ) / (info.samplerate : ℚ)
        else 0
      Sum.inr
        ((if info.channels ≠ 1 then ["not_mono".toList] else []) ++
          (if info.subtype ≠ "PCM_16".toList then ["not_pcm16".toList]
            else []) ++
          (match E.expectedSr with
            | some sr =>
              if sr ≠ 0 ∧ info.samplerate ≠ sr then
                ["sample_rate_mismatch".toList]
              else []
            | none => []) ++
          (if duration ≤ 1/5 then ["too_short".toList] else []))

/-- `compute_similarity`: `SequenceMatcher` ratio, or 1.0 when both
strings are empty. -/
def computeSimilarity (a b : List Char) : ℚ :=
  if a = [] ∧ b = [] then 1 else smRatio a b

/-- The loop state of `validate_dataset_full.main`. -/
structure FVState where
  seen : List (List Char)
  missingWav : List VIssue
  duplicateWav : List VIssue
  textIssues : List VIssue
  audioIssues : List VIssue
  whisperIssues : List VIssue

/-- The body of the per-row loop of `validate_dataset_full.main`
(lines 252–320). -/
def fullRowStep (E : FullEnv) (P : FullParams) (st : FVState) (r : VRow) :
    FVState :=
  if r.rowIssue ≠ [] then
    { st with textIssues :=
        st.textIssues ++ [⟨r.row_num, r.wav, r.text, r.rowIssue⟩] }
  else
    let dup' :=
      if r.wav ∈ st.seen then
        st.duplicateWav ++ [⟨r.row_num, r.wav, r.text, "duplicate_wav".toList⟩]
      else st.duplicateWav
    let seen' := if r.wav ∈ st.seen then st.seen else st.seen ++ [r.wav]
    if E.wavExists r.wav = false then
      { st with
        seen := seen'
        duplicateWav := dup'
        missingWav :=
          st.missingWav ++
            [⟨r.row_num, r.wav, r.text, "missing_wav".toList⟩] }
    else
      let t := st.textIssues ++
        (if r.text.any isNonPrintable then
          [⟨r.row_num, r.wav, r.text, "non_printable".toList⟩] else []) ++
        (if r.text.length < P.minTextLen then
          [⟨r.row_num, r.wav, r.text, "too_short_text".toList⟩] else []) ++
        (if P.maxTextLen < r.text.length then
          [⟨r.row_num, r.wav, r.text, "too_long_text".toList⟩] else [])
      let letters := r.text.countP isCyrChar + r.text.countP isLatChar
      let ratio : ℚ :=
        if letters ≠ 0 then (r.text.countP isCyrChar : ℚ) / (letters : ℚ)
        else 0
      let t := t ++
        (if ratio < P.minCyrRatio then
          [⟨r.row_num, r.wav, r.text, "low_cyrillic_ratio".toList⟩] else [])
      let a := st.audioIssues ++
        (match checkAudioInfo E r.wav with
          | Sum.inl e => [⟨r.row_num, r.wav, r.text, e⟩]
          | Sum.inr issues =>
            issues.map (fun i => ⟨r.row_num, r.wav, r.text, i⟩))
      let w := st.whisperIssues ++
        (if P.whisper then
          match E.whisperHyp r.wav with
          | some hyp =>
            if computeSimilarity (normalizeText r.text) (normalizeText hyp) <
                P.simThreshold then
              [⟨r.row_num, r.wav, r.text, "low_similarity".toList⟩]
            else []
          | none => [⟨r.row_num, r.wav, r.text, "whisper_error".toList⟩]
        else [])
      { seen := seen', missingWav := st.missingWav, duplicateWav := dup',
        textIssues := t, audioIssues := a, whisperIssues := w }

/-- The outcome of `validate_dataset_full.main`. -/
structure FullResult where
  errors : List (List Char)
  missingWav : List VIssue
  duplicateWav : List VIssue
  extraWav : List (List Char)
  textIssues : List VIssue
  audioIssues : List VIssue
  whisperIssues : List VIssue
  verdict : List Char
  exitCode : Nat

/-- `validate_dataset_full.main` after argument parsing: the per-row loop,
the error list, the `failed` disjunction, the verdict and the exit code. -/
def fullValidate (E : FullEnv) (P : FullParams) (rows : List VRow) :
    FullResult :=
  let rows' := if E.hasMetadata = true then rows else []
  let wavFiles' := if E.hasWavsDir = true then E.wavFiles else []
  let st := rows'.foldl (fullRowStep E P) ⟨[], [], [], [], [], []⟩
  let extraWav := wavFiles'.filter (fun w => decide (w ∉ st.seen))
  let errors :=
    (if E.hasConfig = false then ["missing_config".toList] else []) ++
    (if E.hasMetadata = false then ["missing_metadata".toList] else []) ++
    (if E.hasWavsDir = false then ["missing_wavs_dir".toList] else []) ++
    (if P.requireWhisper = true ∧ P.whisper = false then
      ["whisper_not_run".toList] else [])
  let failed := errors ≠ [] ∨ st.missingWav ≠ [] ∨ st.duplicateWav ≠ [] ∨
    extraWav ≠ [] ∨ st.textIssues ≠ [] ∨ st.audioIssues ≠ [] ∨
    (P.requireWhisper = true ∧ (st.whisperIssues ≠ [] ∨ P.whisper = false))
  let verdict := if failed then "FAIL".toList else "PASS".toList
  ⟨errors, st.missingWav, st.duplicateWav, extraWav, st.textIssues,
    st.audioIssues, st.whisperIssues, verdict,
    if verdict = "FAIL".toList then 1 else 0⟩

theorem fullRowStep_missing_hit (E : FullEnv) (P : FullParams)
    (st : FVState) (r : VRow) (h1 : r.rowIssue = [])
    (h2 : E.wavExists r.wav = false) :
    (fullRowStep E P st r).missingWav =
      st.missingWav ++ [⟨r.row_num, r.wav, r.text, "missing_wav".toList⟩] := by
  rw [fullRowStep, if_neg (by simp [h1]), if_pos h2]

theorem fullRowStep_missing_grow (E : FullEnv) (P : FullParams)
    (st : FVState) (r : VRow) :
    ∃ e, (fullRowStep E P st r).missingWav = st.missingWav ++ e := by
  rw [fullRowStep]
  by_cases h1 : r.rowIssue ≠ []
  · refine ⟨[], ?_⟩
    rw [if_pos h1, List.append_nil]
  · rw [if_neg h1]
    by_cases h2 : E.wavExists r.wav = false
    · refine ⟨[⟨r.row_num, r.wav, r.text, "missing_wav".toList⟩], ?_⟩
      rw [if_pos h2]
    · refine ⟨[], ?_⟩
      rw [if_neg h2, List.append_nil]

theorem missing_foldl_grow (E : FullEnv) (P : FullParams) :
    ∀ (l : List VRow) (st : FVState),
      ∃ e, (l.foldl (fullRowStep E P) st).missingWav =
        st.missingWav ++ e := by
  intro l
  induction l with
  | nil =>
    intro st
    exact ⟨[], by simp⟩
  | cons r l ih =>
    intro st
    obtain ⟨e1, he1⟩ := fullRowStep_missing_grow E P st r
    obtain ⟨e2, he2⟩ := ih (fullRowStep E P st r)
    exact ⟨e1 ++ e2, by rw [List.foldl_cons, he2, he1, List.append_assoc]⟩

theorem verdict_fail_aux (c : Prop) [Decidable c] :
    ((if c then "FAIL".toList else "PASS".toList) = "FAIL".toList) ↔ c := by
  by_cases h : c
  · rw [if_pos h]
    exact iff_of_true rfl h
  · rw [if_neg h]
    exact iff_of_false (by decide) h

theorem fullValidate_fail_iff (E : FullEnv) (P : FullParams)
    (rows : List VRow) :
    (fullValidate E P rows).verdict = "FAIL".toList ↔
      (fullValidate E P rows).errors ≠ [] ∨
      (fullValidate E P rows).missingWav ≠ [] ∨
      (fullValidate E P rows).duplicateWav ≠ [] ∨
      (fullValidate E P rows).extraWav ≠ [] ∨
      (fullValidate E P rows).textIssues ≠ [] ∨
      (fullValidate E P rows).audioIssues ≠ [] ∨
      (P.requireWhisper = true ∧
        ((fullValidate E P rows).whisperIssues ≠ [] ∨ P.whisper = false)) := by
  simp only [fullValidate]
  exact verdict_fail_aux _

theorem exit_flag_aux (v : List Char) :
    ((if v = "FAIL".toList then (1 : Nat) else 0) ≠ 0) ↔
      v = "FAIL".toList := by
  by_cases h : v = "FAIL".toList
  · simp [h]
  · simp [h]

/-- C5 (amended): the full-validation verdict is FAIL exactly when a
structural error, a missing or duplicate wav, an extra wav, a text issue,
an audio issue, or (when the whisper pass is required) a whisper issue or
a whisper pass that did not run is present — the code also fails on text
and audio issues, which the claim's "PASS otherwise" omits. A row with no
structural parse issue whose wav does not exist forces FAIL regardless of
the other rows, and the exit code is non-zero exactly when the verdict is
FAIL. -/
theorem claim_C5_full_verdict (E : FullEnv) (P : FullParams)
    (rows : List VRow) :
    ((fullValidate E P rows).verdict = "FAIL".toList ↔
      (fullValidate E P rows).errors ≠ [] ∨
      (fullValidate E P rows).missingWav ≠ [] ∨
      (fullValidate E P rows).duplicateWav ≠ [] ∨
      (fullValidate E P rows).extraWav ≠ [] ∨
      (fullValidate E P rows).textIssues ≠ [] ∨
      (fullValidate E P rows).audioIssues ≠ [] ∨
      (P.requireWhisper = true ∧
        ((fullValidate E P rows).whisperIssues ≠ [] ∨ P.whisper = false))) ∧
    (∀ r ∈ rows, E.hasMetadata = true → r.rowIssue = [] →
      E.wavExists r.wav = false →
      (fullValidate E P rows).verdict = "FAIL".toList) ∧
    ((fullValidate E P rows).exitCode ≠ 0 ↔
      (fullValidate E P rows).verdict = "FAIL".toList) := by
  refine ⟨fullValidate_fail_iff E P rows, ?_, ?_⟩
  · intro r hr hmeta hri hex
    refine (fullValidate_fail_iff E P rows).mpr (Or.inr (Or.inl ?_))
    have hmw : (fullValidate E P rows).missingWav =
        ((if E.hasMetadata = true then rows else []).foldl (fullRowStep E P)
          ⟨[], [], [], [], [], []⟩).missingWav := rfl
    rw [hmw, hmeta, if_pos rfl]
    obtain ⟨pre, post, hsplit⟩ := List.append_of_mem hr
    subst hsplit
    rw [List.foldl_append, List.foldl_cons]
    obtain ⟨e, he⟩ := missing_foldl_grow E P post
      (fullRowStep E P (pre.foldl (fullRowStep E P) ⟨[], [], [], [], [], []⟩) r)
    rw [he, fullRowStep_missing_hit E P _ r hri hex]
    simp
  · show ((if (fullValidate E P rows).verdict = "FAIL".toList then (1 : Nat)
        else 0) ≠ 0) ↔ (fullValidate E P rows).verdict = "FAIL".toList
    exact exit_flag_aux _

/-- A concrete environment: one existing clean wav `a.wav`, soundfile
installed, whisper oracle never answering. -/
def fullEnvC5 : FullEnv :=
  ⟨true, true, true, some 48000, ["a.wav".toList], true,
    fun _ => some ⟨48000, 1, "PCM_16".toList, 48000⟩,
    fun w => decide (w = "a.wav".toList), fun _ => none⟩

/-- The full validator defaults with whisper disabled and not required. -/
def fullParamsC5 : FullParams := ⟨3, 400, 3/5, 4/5, false, false⟩

/-- A two-row corpus whose second row references the non-existent
`b.wav`. -/
def rowsC5 : List VRow :=
  [⟨1, "a.wav".toList, "привет".toList, []⟩,
    ⟨2, "b.wav".toList, "привет мир".toList, []⟩]

set_option maxRecDepth 1000000 in
/-- C5 witness: on the two-row corpus whose second row references a
non-existent wav, the verdict theorem gives FAIL, and the exit code is
indeed 1. -/
theorem claim_C5_full_verdict_witness :
    ((⟨2, "b.wav".toList, "привет мир".toList, []⟩ : VRow) ∈ rowsC5 ∧
      fullEnvC5.hasMetadata = true ∧
      fullEnvC5.wavExists "b.wav".toList = false) ∧
    (fullValidate fullEnvC5 fullParamsC5 rowsC5).verdict = "FAIL".toList ∧
    (fullValidate fullEnvC5 fullParamsC5 rowsC5).exitCode = 1 :=
  ⟨⟨by decide, rfl, by decide⟩,
    (claim_C5_full_verdict fullEnvC5 fullParamsC5 rowsC5).2.1
      ⟨2, "b.wav".toList, "привет мир".toList, []⟩ (by decide) rfl rfl
      (by decide),
    by with_unfolding_all decide⟩

set_option maxRecDepth 1000000 in
/-- C5 counterexample: a corpus with no structural error, no missing,
duplicate or extra wav, and no required whisper pass still gets verdict
FAIL (and exit code 1) from a single over-long text, so "PASS otherwise"
is wrong as stated. -/
theorem claim_C5_counterexample :
    (fullValidate fullEnvC5 fullParamsC5
        [⟨1, "a.wav".toList, List.replicate 401 'а', []⟩]).errors = [] ∧
    (fullValidate fullEnvC5 fullParamsC5
        [⟨1, "a.wav".toList, List.replicate 401 'а', []⟩]).missingWav = [] ∧
    (fullValidate fullEnvC5 fullParamsC5
        [⟨1, "a.wav".toList, List.replicate 401 'а', []⟩]).duplicateWav = [] ∧
    (fullValidate fullEnvC5 fullParamsC5
        [⟨1, "a.wav".toList, List.replicate 401 'а', []⟩]).extraWav = [] ∧
    (fullValidate fullEnvC5 fullParamsC5
        [⟨1, "a.wav".toList, List.replicate 401 'а', []⟩]).whisperIssues = [] ∧
    fullParamsC5.requireWhisper = false ∧
    (fullValidate fullEnvC5 fullParamsC5
        [⟨1, "a.wav".toList, List.replicate 401 'а', []⟩]).verdict =
      "FAIL".toList ∧
    (fullValidate fullEnvC5 fullParamsC5
        [⟨1, "a.wav".toList, List.replicate 401 'а', []⟩]).exitCode = 1 := by
  with_unfolding_all decide
